import Mathlib

/-!
Verification of the data-update pipeline in `update_data.py`
(fetch → parse → merge → serialize → patch).

Embedding conventions:
* Python strings are modelled as `List Char`.
* All numeric values flowing through the program are decimals with one
  fractional digit (the parser stores `round(value, 1)` and the fixed
  historical constants are one-decimal literals), so a value is modelled
  exactly as its integer number of tenths (`Int`); e.g. `9.7` is `97`.
  Candidate values are parsed as exact rationals (`ℚ`) before rounding.
* A Python `dict` is an insertion-ordered association list with unique
  keys; `d[k] = v` replaces in place or appends (`dictSet`), and
  `d.update e` folds `dictSet` over `e` (`dictUpdate`).
* `csv.reader` on quote-free input splits the text on newlines (a
  trailing newline produces no extra record) and each record on the
  single-character delimiter; this is the behaviour exercised here,
  where no cell is quoted.  Python `int()` / `float()` are modelled on
  the plain decimal forms (optional sign, digits, optional fractional
  part); exponent forms, `inf`/`nan` and underscore separators never
  occur in the inputs considered.  `round(x, 1)` is round-half-to-even
  to tenths on the exact rational.
* Network and file effects are abstracted: the fetched text, the current
  year, the formatted current date and the current content of the target
  file are inputs, and the patch step reports what it would write.
-/

set_option linter.unusedVariables false

/-- The double-quote character `"` (stripped from CSV cells). -/
def quoteD : Char := Char.ofNat 34

/-- The single-quote character (stripped from CSV cells). -/
def quoteS : Char := Char.ofNat 39

/-- The closing brace character that terminates the `const RAW` block. -/
def closeBrace : Char := Char.ofNat 125

/-- A Python dict from year to value-in-tenths, as an association list. -/
abbrev Dict := List (Int × Int)

/-- Model of `d[k] = v`: replace the first entry with key `k` in place (keys are
unique, so this is the entry) if present, else append at the end. -/
def dictSet : Dict → Int → Int → Dict
  | [], k, v => [(k, v)]
  | p :: rest, k, v => if p.1 = k then (k, v) :: rest else p :: dictSet rest k v

/-- Dictionary lookup (`d[k]`): the first entry with key `k`. -/
def dictGet? : Dict → Int → Option Int
  | [], _ => none
  | p :: rest, k => if p.1 = k then some p.2 else dictGet? rest k

/-- Model of `list(d.keys())`. -/
def dictKeys (d : Dict) : List Int := d.map Prod.fst

/-- Model of `d.update(e)`: write every entry of `e` into `d`, overwriting on collision. -/
def dictUpdate (d e : Dict) : Dict := e.foldl (fun acc p => dictSet acc p.1 p.2) d

/-- Value of a decimal digit character. -/
def digitVal (c : Char) : Nat := c.toNat - 48

/-- Interpret a list of decimal digit characters, most significant first. -/
def digitsToNat (l : List Char) : Nat := l.foldl (fun n c => 10 * n + digitVal c) 0

/-- Fuel-driven decimal rendering of a natural number. -/
def natDigitsAux : Nat → Nat → List Char
  | 0, _ => []
  | fuel + 1, n =>
    if n < 10 then [Nat.digitChar n]
    else natDigitsAux fuel (n / 10) ++ [Nat.digitChar (n % 10)]

/-- Decimal digit string of a natural number, as produced by Python `str`. -/
def natDigits (n : Nat) : List Char := natDigitsAux (n + 1) n

/-- Python `str` of an `int`. -/
def intDecString (z : Int) : List Char :=
  if z < 0 then '-' :: natDigits z.natAbs else natDigits z.toNat

/-- Python `str` of a one-decimal float given as its number of tenths:
`renderTenths 97 = "9.7"`, `renderTenths (-50) = "-5.0"`. -/
def renderTenths (v : Int) : List Char :=
  (if v < 0 then ['-'] else []) ++
    natDigits (v.natAbs / 10) ++ '.' :: [Nat.digitChar (v.natAbs % 10)]

/-- Python `"{:>5}".format`: right-align in a field of width 5. -/
def padLeft5 (l : List Char) : List Char := List.replicate (5 - l.length) ' ' ++ l

/-- Python `str.strip()` (whitespace at both ends). -/
def trimChars (l : List Char) : List Char :=
  ((l.dropWhile Char.isWhitespace).reverse.dropWhile Char.isWhitespace).reverse

/-- Python `str.strip(q)` for a single character `q` (both ends, all copies). -/
def stripEnds (q : Char) (l : List Char) : List Char :=
  ((l.dropWhile (fun c => c == q)).reverse.dropWhile (fun c => c == q)).reverse

/-- Python `str.replace(",", ".")` (single-character substrings). -/
def commaToDot (l : List Char) : List Char :=
  l.map (fun c => if c == ',' then '.' else c)

/-- Cell normalisation of `fetch_data`:
`c.strip().strip(quoteD).strip(quoteS).replace(",", ".")`. -/
def cleanCell (l : List Char) : List Char :=
  commaToDot (stripEnds quoteS (stripEnds quoteD (trimChars l)))

/-- Python `int(s)` on plain decimal forms: optional surrounding
whitespace, optional sign, one or more digits. -/
def parseInt? (l : List Char) : Option Int :=
  match trimChars l with
  | [] => none
  | c :: rest =>
    if c = '-' then
      if rest ≠ [] ∧ rest.all Char.isDigit then some (-(digitsToNat rest : Int)) else none
    else if c = '+' then
      if rest ≠ [] ∧ rest.all Char.isDigit then some ((digitsToNat rest : Int)) else none
    else if (c :: rest).all Char.isDigit then some ((digitsToNat (c :: rest) : Int)) else none

/-- Unsigned part of Python `float(s)`: digits with an optional single
dot, at least one digit overall, as an exact rational
`ip.fp = (ip * 10^|fp| + fp) / 10^|fp|`. -/
def parseDecCore (body : List Char) : Option ℚ :=
  let ip := body.takeWhile (fun c => c != '.')
  match body.drop ip.length with
  | [] => if ip ≠ [] ∧ ip.all Char.isDigit then some (mkRat (digitsToNat ip : Int) 1) else none
  | _ :: fp =>
    if (ip ≠ [] ∨ fp ≠ []) ∧ ip.all Char.isDigit ∧ fp.all Char.isDigit ∧
        fp.all (fun c => c != '.') then
      some (mkRat ((digitsToNat ip : Int) * 10 ^ fp.length + (digitsToNat fp : Int))
        (10 ^ fp.length))
    else none

/-- Python `float(s)` on plain decimal forms, as an exact rational. -/
def parseDecimal? (l : List Char) : Option ℚ :=
  match trimChars l with
  | [] => none
  | c :: rest =>
    if c = '-' then (parseDecCore rest).map (fun q => -q)
    else if c = '+' then parseDecCore rest
    else parseDecCore (c :: rest)

/-- Round the fraction `a / b` (with `b > 0`) half-to-even to an
integer, via the floor `a.fdiv b` and the remainder. -/
def roundHalfEvenFrac (a b : Int) : Int :=
  let f := a.fdiv b
  let r := a - f * b
  if 2 * r < b then f
  else if b < 2 * r then f + 1
  else if f % 2 = 0 then f else f + 1

/-- Python `round(value, 1)`, returning the number of tenths: round
`10 * q` half-to-even. -/
def roundTo1 (q : ℚ) : Int := roundHalfEvenFrac (10 * q.num) (q.den : Int)

/-- Split a character list at every occurrence of `sep`
(`"a,b".split(",") = ["a", "b"]` semantics). -/
def splitOnChar (sep : Char) : List Char → List (List Char)
  | [] => [[]]
  | c :: rest =>
    if c = sep then [] :: splitOnChar sep rest
    else
      match splitOnChar sep rest with
      | [] => [[c]]
      | h :: t => (c :: h) :: t

/-- Records seen by `csv.reader`: newline-separated lines, a trailing
newline producing no extra record. -/
def splitLines (raw : List Char) : List (List Char) :=
  let parts := splitOnChar '\n' raw
  if parts.getLast? = some [] then parts.dropLast else parts

/-- Model of `list(csv.reader(io.StringIO(raw), delimiter=sep))` on quote-free text. -/
def csvRows (sep : Char) (raw : List Char) : List (List (List Char)) :=
  (splitLines raw).map (splitOnChar sep)

/-- One adjacent cell pair `(clean[i], clean[i+1])` of `fetch_data`:
accept it as `(year, value)` when both parse and both range checks
`1993 <= year <= current_year` and `-5.0 <= value <= 100.0` hold. -/
def scanPair (currentYear : Int) (d : Dict) (a b : List Char) : Dict :=
  match parseInt? a, parseDecimal? b with
  | some year, some value =>
    if 1993 ≤ year ∧ year ≤ currentYear ∧ -5 ≤ value ∧ value ≤ 100 then
      dictSet d year (roundTo1 value)
    else d
  | _, _ => d

/-- One data row of `fetch_data`: normalise every cell, then scan every
adjacent cell pair. -/
def scanRow (currentYear : Int) (d : Dict) (row : List (List Char)) : Dict :=
  let clean := row.map cleanCell
  (clean.zip clean.tail).foldl (fun acc p => scanPair currentYear acc p.1 p.2) d

/-- The delimiter loop of `fetch_data`: for each candidate delimiter,
skip it if fewer than two records result, otherwise scan all data rows
(excluding the header) and stop as soon as the dict is non-empty. -/
def parseLoop (currentYear : Int) (raw : List Char) : List Char → Dict → Dict
  | [], d => d
  | sep :: more, d =>
    let rows := csvRows sep raw
    if rows.length < 2 then parseLoop currentYear raw more d
    else
      let d2 := (rows.drop 1).foldl (scanRow currentYear) d
      if d2.isEmpty then parseLoop currentYear raw more d2 else d2

/-- The parsing part of `fetch_data` (src/update_data.py lines 46-73):
the raw response text and the current year are inputs; the network
request and logging are abstracted away. -/
def parse_data (currentYear : Int) (raw : List Char) : Dict :=
  parseLoop currentYear raw [',', ';', '\t'] []

/-- The `FIXED_HISTORICAL` constant (values in tenths):
`{1990: 9.7, 1991: 56.6, 1992: 11.1}`. -/
def FIXED_HISTORICAL : Dict := [(1990, 97), (1991, 566), (1992, 111)]

/-- The merge step of `build_raw_block`:
`combined = {}; combined.update(d); combined.update(e)`. -/
def merge (d e : Dict) : Dict := dictUpdate (dictUpdate [] d) e

/-- The combined mapping built inside `build_raw_block`. -/
def combinedDict (api_data : Dict) : Dict := merge FIXED_HISTORICAL api_data

/-- Model of `max(d.keys())` (the dict is never empty at the call site). -/
def maxKey (d : Dict) : Int :=
  match dictKeys d with
  | [] => 0
  | k :: ks => ks.foldl max k

/-- Model of `sorted(d.keys())`. -/
def sortedKeys (d : Dict) : List Int := List.insertionSort (· ≤ ·) (dictKeys d)

/-- Annotation for 1990 and 1992. -/
def histNote : List Char := ("  // CSFR / CSU hist. publikace").toList

/-- Annotation for 1991. -/
def libNote : List Char := ("  // CSFR - liberalizace cen").toList

/-- Annotation for the most recent year, carrying the current date. -/
def updNote (date : List Char) : List Char := ("  // CSU, aktualizovano ").toList ++ date

/-- The annotation chain of `build_raw_block` (lines 85-93): 1990, else
1991, else 1992, else the maximum year, else no annotation. -/
def commentFor (date : List Char) (maxYear year : Int) : List Char :=
  if year = 1990 then histNote
  else if year = 1991 then libNote
  else if year = 1992 then histNote
  else if year = maxYear then updNote date
  else []

/-- One rendered line of `build_raw_block`:
`"  {}: {:>5},{}".format(year, value, comment)`. -/
def lineFor (date : List Char) (combined : Dict) (year : Int) : List Char :=
  ' ' :: ' ' :: intDecString year ++ ':' :: ' ' ::
    padLeft5 (renderTenths ((dictGet? combined year).getD 0)) ++
    ',' :: commentFor date (maxKey combined) year

/-- All rendered data lines, in ascending year order. -/
def blockLines (date : List Char) (combined : Dict) : List (List Char) :=
  (sortedKeys combined).map (lineFor date combined)

/-- Python `"\n".join`. -/
def joinNL : List (List Char) → List Char
  | [] => []
  | [l] => l
  | l :: l2 :: ls => l ++ '\n' :: joinNL (l2 :: ls)

/-- The opening token of the generated block, `const RAW = \x7b`. -/
def openTok : List Char := ("const RAW = \x7b").toList

/-- The serialisation step of `build_raw_block` (lines 81-95), applied
to the already-merged mapping. -/
def serializeBlock (date : List Char) (combined : Dict) : List Char :=
  openTok ++ ('\n' :: (joinNL (blockLines date combined) ++ ['\n'])) ++ closeBrace :: [';']

/-- Model of `build_raw_block(api_data)`: merge the fixed historical constants
with the API data, then serialize. -/
def build_raw_block (date : List Char) (api_data : Dict) : List Char :=
  serializeBlock date (combinedDict api_data)

/-- Match of the pattern `const RAW = \x7b[^\x7d]+\x7d;` at the head of
the text: the opening token, a non-empty run of non-brace characters,
then a closing brace and semicolon.  Returns the matched span and the
remaining text. -/
def matchRawAt (l : List Char) : Option (List Char × List Char) :=
  if openTok <+: l then
    let rest := l.drop openTok.length
    let body := rest.takeWhile (fun c => c != closeBrace)
    match rest.drop body.length with
    | b :: s :: after =>
      if body ≠ [] ∧ b = closeBrace ∧ s = ';' then
        some (openTok ++ body ++ closeBrace :: [';'], after)
      else none
    | _ => none
  else none

/-- Leftmost match of the block pattern (`re.search` / `re.sub count=1`):
returns the text before the match, the match, and the text after it. -/
def splitFirstMatch : List Char → Option (List Char × List Char × List Char)
  | [] => none
  | c :: rest =>
    match matchRawAt (c :: rest) with
    | some (m, after) => some ([], m, after)
    | none =>
      match splitFirstMatch rest with
      | some (b, m, a) => some (c :: b, m, a)
      | none => none

/-- Observable outcome of `update_html`: its return value, the content
written to the target file (if any), and whether the missing-marker
diagnostic was printed to stderr. -/
structure PatchOutcome where
  ret : Bool
  written : Option (List Char)
  errPrinted : Bool
deriving DecidableEq

/-- Model of `update_html(new_raw_block)` on a target file whose current content
is `html`: no marker → return `False`, print the diagnostic, write
nothing; replacement equal to the original → return `False`, write
nothing; otherwise write the new text and return `True`. -/
def update_html (newBlock html : List Char) : PatchOutcome :=
  match splitFirstMatch html with
  | none => ⟨false, none, true⟩
  | some (b, _, a) =>
    let newHtml := b ++ newBlock ++ a
    if newHtml = html then ⟨false, none, false⟩ else ⟨true, some newHtml, false⟩

/-- Result of one whole run: the process exit code and the final content
of the target file. -/
structure RunResult where
  exitCode : Nat
  finalHtml : List Char

/-- The `__main__` block: fetch (failure modelled by `fetchOk = false`,
which makes `fetch_data` return the empty dict), skip with `sys.exit(0)`
when no data, otherwise build the block, patch the file and `sys.exit(0)`. -/
def mainRun (fetchOk : Bool) (raw : List Char) (currentYear : Int)
    (date html : List Char) : RunResult :=
  let api_data := if fetchOk then parse_data currentYear raw else []
  if api_data.isEmpty then ⟨0, html⟩
  else
    let outcome := update_html (build_raw_block date api_data) html
    ⟨0, (outcome.written).getD html⟩

/-- A full generated block: the opening token, a non-empty brace-free
body, the closing brace and semicolon. -/
def isRawBlock (l : List Char) : Prop :=
  ∃ body, body ≠ [] ∧ closeBrace ∉ body ∧ l = openTok ++ body ++ closeBrace :: [';']

/-- The marker pattern occurs somewhere in the text. -/
def containsMarker (html : List Char) : Prop :=
  ∃ pre body rest, body ≠ [] ∧ closeBrace ∉ body ∧
    html = pre ++ openTok ++ body ++ closeBrace :: ';' :: rest

/-- Re-extraction of the numeric part of one rendered line, following
the words of the spec round-trip property (`serialize →
re-parse-the-numeric-lines`): the year is everything before the first
colon, the value everything after it up to the first comma, the
annotation is ignored.  This function is spec-side; the repository has
no extractor. -/
def specExtractPair (l : List Char) : Option (Int × Int) :=
  let yearPart := l.takeWhile (fun c => c != ':')
  let afterColon := (l.drop yearPart.length).drop 1
  let valPart := afterColon.takeWhile (fun c => c != ',')
  match parseInt? yearPart, parseDecimal? valPart with
  | some y, some q => some (y, roundTo1 q)
  | _, _ => none

/-- Input construction for the row-parsing claim: a header line and one
data line holding `(y, v)` with the given delimiter, `v` in tenths. -/
def mkDataRow (sep : Char) (y v : Int) : List Char :=
  intDecString y ++ sep :: renderTenths v

/-- Raw response text consisting of a header row and one data row. -/
def mkRaw (sep : Char) (y v : Int) : List Char :=
  (("year").toList ++ sep :: ("value").toList) ++ '\n' :: (mkDataRow sep y v ++ ['\n'])

/-- The ten decimal digit characters. -/
def decDigits : List Char := ['0', '1', '2', '3', '4', '5', '6', '7', '8', '9']

/-- Characters that can occur in a rendered number. -/
def numChars : List Char := ['0', '1', '2', '3', '4', '5', '6', '7', '8', '9', '-', '.']

/-- The marker pattern matches at the head of the text: an opening
token, a non-empty brace-free body, then the closing brace and
semicolon, followed by arbitrary text. -/
def headMarker (l : List Char) : Prop :=
  ∃ body rest, body ≠ [] ∧ closeBrace ∉ body ∧
    l = openTok ++ body ++ closeBrace :: ';' :: rest

/-! ### Character-set and round-trip lemmas -/

theorem digitChar_mem_decDigits {k : Nat} (h : k < 10) : Nat.digitChar k ∈ decDigits := by
  interval_cases k <;> decide

theorem digitVal_digitChar {k : Nat} (h : k < 10) : digitVal (Nat.digitChar k) = k := by
  interval_cases k <;> decide

theorem digitsToNat_append (l : List Char) (c : Char) :
    digitsToNat (l ++ [c]) = 10 * digitsToNat l + digitVal c := by
  simp [digitsToNat, List.foldl_append]

theorem digitsToNat_single (c : Char) : digitsToNat [c] = digitVal c := by
  simp [digitsToNat]

theorem natDigitsAux_spec : ∀ fuel n, n < 10 ^ fuel → 1 ≤ fuel →
    natDigitsAux fuel n ≠ [] ∧ (∀ c ∈ natDigitsAux fuel n, c ∈ decDigits) ∧
      digitsToNat (natDigitsAux fuel n) = n := by
  intro fuel
  induction fuel with
  | zero => intro n _ h; omega
  | succ f ih =>
    intro n hlt _
    by_cases h10 : n < 10
    · refine ⟨by simp [natDigitsAux, h10], ?_, ?_⟩
      · intro c hc
        simp only [natDigitsAux, if_pos h10, List.mem_singleton] at hc
        exact hc ▸ digitChar_mem_decDigits h10
      · simp [natDigitsAux, h10, digitsToNat_single, digitVal_digitChar h10]
    · have hf : 1 ≤ f := by
        rcases Nat.eq_zero_or_pos f with rfl | h
        · simp at hlt; omega
        · exact h
      have hdiv : n / 10 < 10 ^ f := by
        rw [Nat.div_lt_iff_lt_mul (by norm_num)]
        calc n < 10 ^ (f + 1) := hlt
        _ = 10 ^ f * 10 := by rw [pow_succ]
      obtain ⟨hne, hmem, hval⟩ := ih (n / 10) hdiv hf
      have hmod : n % 10 < 10 := Nat.mod_lt _ (by norm_num)
      refine ⟨by simp [natDigitsAux, h10], ?_, ?_⟩
      · intro c hc
        simp only [natDigitsAux, if_neg h10, List.mem_append, List.mem_singleton] at hc
        rcases hc with hc | hc
        · exact hmem c hc
        · exact hc ▸ digitChar_mem_decDigits hmod
      · simp only [natDigitsAux, if_neg h10]
        rw [digitsToNat_append, hval, digitVal_digitChar hmod, Nat.div_add_mod]

theorem natDigits_spec (n : Nat) :
    natDigits n ≠ [] ∧ (∀ c ∈ natDigits n, c ∈ decDigits) ∧
      digitsToNat (natDigits n) = n := by
  refine natDigitsAux_spec (n + 1) n ?_ (by omega)
  calc n < 10 ^ n := Nat.lt_pow_self (by norm_num) n
  _ ≤ 10 ^ (n + 1) := Nat.pow_le_pow_right (by norm_num) (Nat.le_succ n)

theorem natDigits_ne_nil (n : Nat) : natDigits n ≠ [] := (natDigits_spec n).1

theorem natDigits_mem {n : Nat} : ∀ c ∈ natDigits n, c ∈ decDigits := (natDigits_spec n).2.1

theorem digitsToNat_natDigits (n : Nat) : digitsToNat (natDigits n) = n := (natDigits_spec n).2.2

theorem decDigits_sub_numChars : ∀ c ∈ decDigits, c ∈ numChars := by decide

theorem intDecString_mem {z : Int} : ∀ c ∈ intDecString z, c ∈ numChars := by
  intro c hc
  unfold intDecString at hc
  split at hc
  · rcases List.mem_cons.mp hc with rfl | hc
    · decide
    · exact decDigits_sub_numChars c (natDigits_mem c hc)
  · exact decDigits_sub_numChars c (natDigits_mem c hc)

theorem renderTenths_mem {v : Int} : ∀ c ∈ renderTenths v, c ∈ numChars := by
  intro c hc
  unfold renderTenths at hc
  simp only [List.mem_append, List.mem_cons, List.mem_singleton] at hc
  rcases hc with (hc | hc) | hc | hc
  · split at hc
    · simp only [List.mem_singleton] at hc; subst hc; decide
    · simp at hc
  · exact decDigits_sub_numChars c (natDigits_mem c hc)
  · subst hc; decide
  · rcases hc with hc | hc
    · subst hc
      exact decDigits_sub_numChars _ (digitChar_mem_decDigits (Nat.mod_lt _ (by norm_num)))
    · simp at hc

theorem dropWhile_eq_self {p : Char → Bool} {l : List Char}
    (h : ∀ c ∈ l, p c = false) : l.dropWhile p = l := by
  cases l with
  | nil => rfl
  | cons c r => simp [List.dropWhile, h c (List.mem_cons_self c r)]

theorem trimChars_eq_self {l : List Char} (h : ∀ c ∈ l, c.isWhitespace = false) :
    trimChars l = l := by
  unfold trimChars
  rw [dropWhile_eq_self h, dropWhile_eq_self (by simpa using fun c hc => h c hc),
    List.reverse_reverse]

theorem stripEnds_eq_self {q : Char} {l : List Char} (h : q ∉ l) : stripEnds q l = l := by
  have hb : ∀ c ∈ l, (c == q) = false := by
    intro c hc
    exact beq_eq_false_iff_ne.mpr (fun e => h (e ▸ hc))
  unfold stripEnds
  rw [dropWhile_eq_self hb, dropWhile_eq_self (by simpa using fun c hc => hb c hc),
    List.reverse_reverse]

theorem commaToDot_eq_self {l : List Char} (h : (',') ∉ l) : commaToDot l = l := by
  unfold commaToDot
  rw [List.map_congr_left, List.map_id]
  intro c hc
  simp only [id]
  rw [if_neg]
  simp only [beq_iff_eq]
  exact fun e => h (e ▸ hc)

theorem cleanCell_eq_self {l : List Char}
    (h1 : ∀ c ∈ l, c.isWhitespace = false)
    (h2 : quoteD ∉ l) (h3 : quoteS ∉ l) (h4 : (',') ∉ l) : cleanCell l = l := by
  unfold cleanCell
  rw [trimChars_eq_self h1, stripEnds_eq_self h2, stripEnds_eq_self h3, commaToDot_eq_self h4]

theorem numChars_not_ws : ∀ c ∈ numChars, c.isWhitespace = false := by decide

/-- A list of number characters is untouched by cell normalisation. -/
theorem cleanCell_eq_self_of_num {l : List Char} (h : ∀ c ∈ l, c ∈ numChars) :
    cleanCell l = l := by
  refine cleanCell_eq_self (fun c hc => numChars_not_ws c (h c hc)) ?_ ?_ ?_ <;>
    intro hm <;> revert hm
  · exact fun hm => absurd (h _ hm) (by decide)
  · exact fun hm => absurd (h _ hm) (by decide)
  · exact fun hm => absurd (h _ hm) (by decide)

theorem decDigits_isDigit : ∀ c ∈ decDigits, c.isDigit = true := by decide

theorem decDigits_not_sign : ∀ c ∈ decDigits, ¬ c = '-' ∧ ¬ c = '+' := by decide

theorem numChars_trim {l : List Char} (h : ∀ c ∈ l, c ∈ numChars) : trimChars l = l :=
  trimChars_eq_self (fun c hc => numChars_not_ws c (h c hc))

theorem parseInt?_digits {l : List Char} (hne : l ≠ []) (hmem : ∀ c ∈ l, c ∈ decDigits) :
    parseInt? l = some ((digitsToNat l : Nat) : Int) := by
  have htrim : trimChars l = l :=
    numChars_trim (fun c hc => decDigits_sub_numChars c (hmem c hc))
  obtain ⟨c, rest, rfl⟩ := List.exists_cons_of_ne_nil hne
  have hhead := hmem c (List.mem_cons_self c rest)
  have hall : (c :: rest).all Char.isDigit = true := by
    rw [List.all_eq_true]
    exact fun x hx => decDigits_isDigit x (hmem x hx)
  unfold parseInt?
  rw [htrim]
  simp only [if_neg (decDigits_not_sign c hhead).1, if_neg (decDigits_not_sign c hhead).2,
    if_pos hall]

theorem parseInt?_natDigits (n : Nat) : parseInt? (natDigits n) = some (n : Int) := by
  rw [parseInt?_digits (natDigits_ne_nil n) natDigits_mem, digitsToNat_natDigits]

theorem parseInt?_intDecString (z : Int) : parseInt? (intDecString z) = some z := by
  unfold intDecString
  split
  · rename_i hneg
    have htrim : trimChars ('-' :: natDigits z.natAbs) = '-' :: natDigits z.natAbs := by
      refine numChars_trim ?_
      intro c hc
      rcases List.mem_cons.mp hc with rfl | hc
      · decide
      · exact decDigits_sub_numChars c (natDigits_mem c hc)
    have hall : (natDigits z.natAbs).all Char.isDigit = true := by
      rw [List.all_eq_true]
      exact fun x hx => decDigits_isDigit x (natDigits_mem x hx)
    have hz : -((digitsToNat (natDigits z.natAbs) : Nat) : Int) = z := by
      rw [digitsToNat_natDigits]
      have : ((z.natAbs : Nat) : Int) = -z := by omega
      rw [this, neg_neg]
    unfold parseInt?
    rw [htrim]
    simp only [if_pos rfl, if_pos (And.intro (natDigits_ne_nil z.natAbs) hall), hz, if_true]
  · rename_i hneg
    rw [parseInt?_natDigits]
    congr 1
    omega

theorem takeWhile_append_stop {p : Char → Bool} :
    ∀ (xs : List Char) {y : Char} {ys : List Char}, (∀ c ∈ xs, p c = true) → p y = false →
      (xs ++ y :: ys).takeWhile p = xs := by
  intro xs
  induction xs with
  | nil =>
    intro y ys _ hy
    simp [List.takeWhile_cons, hy]
  | cons c r ih =>
    intro y ys hall hy
    have hc := hall c (List.mem_cons_self c r)
    simp only [List.cons_append, List.takeWhile_cons, hc, if_true]
    rw [ih (fun x hx => hall x (List.mem_cons_of_mem c hx)) hy]

theorem decDigits_ne_dot : ∀ c ∈ decDigits, (c != '.') = true := by decide

theorem parseDecCore_tenths (a b : Nat) (hb : b < 10) :
    parseDecCore (natDigits a ++ '.' :: [Nat.digitChar b]) =
      some (mkRat ((10 * a + b : Nat) : Int) 10) := by
  have hip : (natDigits a ++ '.' :: [Nat.digitChar b]).takeWhile (fun c => c != '.') =
      natDigits a :=
    takeWhile_append_stop (natDigits a)
      (fun c hc => decDigits_ne_dot c (natDigits_mem c hc)) (by decide)
  simp only [parseDecCore, hip]
  rw [List.drop_left]
  have hcond : ((natDigits a ≠ [] ∨ ([Nat.digitChar b] : List Char) ≠ []) ∧
      (natDigits a).all Char.isDigit = true ∧
      ([Nat.digitChar b] : List Char).all Char.isDigit = true ∧
      ([Nat.digitChar b] : List Char).all (fun c => c != '.') = true) := by
    refine ⟨Or.inl (natDigits_ne_nil a), ?_, ?_, ?_⟩
    · rw [List.all_eq_true]
      exact fun x hx => decDigits_isDigit x (natDigits_mem x hx)
    · simp [decDigits_isDigit _ (digitChar_mem_decDigits hb)]
    · simp [decDigits_ne_dot _ (digitChar_mem_decDigits hb)]
  simp only [if_pos hcond, digitsToNat_natDigits, digitsToNat_single, digitVal_digitChar hb]
  congr 1
  · push_cast
    ring_nf
    norm_num

theorem mkRat_tenths (n : Nat) : mkRat ((n : Nat) : Int) 10 = ((n : Int) : ℚ) / 10 := by
  rw [Rat.mkRat_eq_div]
  norm_num

theorem renderTenths_body_mem (v : Int) :
    ∀ c ∈ natDigits (v.natAbs / 10) ++ '.' :: [Nat.digitChar (v.natAbs % 10)], c ∈ numChars := by
  have hmod : v.natAbs % 10 < 10 := Nat.mod_lt _ (by norm_num)
  intro c hc
  simp only [List.mem_append, List.mem_cons, List.mem_singleton] at hc
  rcases hc with hc | hc | hc
  · exact decDigits_sub_numChars c (natDigits_mem c hc)
  · subst hc; decide
  · rcases hc with hc | hc
    · subst hc; exact decDigits_sub_numChars _ (digitChar_mem_decDigits hmod)
    · simp at hc

theorem parseDecimal?_renderTenths (v : Int) :
    parseDecimal? (renderTenths v) = some ((v : ℚ) / 10) := by
  have hmod : v.natAbs % 10 < 10 := Nat.mod_lt _ (by norm_num)
  have hcore : parseDecCore (natDigits (v.natAbs / 10) ++ '.' :: [Nat.digitChar (v.natAbs % 10)]) =
      some (mkRat ((v.natAbs : Nat) : Int) 10) := by
    rw [parseDecCore_tenths _ _ hmod]
    congr 2
    omega
  by_cases hneg : v < 0
  · have hrend : renderTenths v = '-' :: (natDigits (v.natAbs / 10) ++
        '.' :: [Nat.digitChar (v.natAbs % 10)]) := by
      simp [renderTenths, if_pos hneg]
    have htrim : trimChars ('-' :: (natDigits (v.natAbs / 10) ++
        '.' :: [Nat.digitChar (v.natAbs % 10)])) = '-' :: (natDigits (v.natAbs / 10) ++
        '.' :: [Nat.digitChar (v.natAbs % 10)]) := by
      refine numChars_trim ?_
      intro c hc
      rcases List.mem_cons.mp hc with rfl | hc
      · decide
      · exact renderTenths_body_mem v c hc
    rw [hrend]
    unfold parseDecimal?
    rw [htrim]
    simp only [if_pos rfl, hcore, Option.map_some']
    rw [mkRat_tenths]
    have : ((v.natAbs : Nat) : Int) = -v := by omega
    rw [this]
    push_cast
    ring
  · have hrend : renderTenths v = natDigits (v.natAbs / 10) ++
        '.' :: [Nat.digitChar (v.natAbs % 10)] := by
      simp [renderTenths, if_neg hneg]
    have htrim : trimChars (natDigits (v.natAbs / 10) ++
        '.' :: [Nat.digitChar (v.natAbs % 10)]) = natDigits (v.natAbs / 10) ++
        '.' :: [Nat.digitChar (v.natAbs % 10)] :=
      numChars_trim (renderTenths_body_mem v)
    obtain ⟨c, rest, e⟩ := List.exists_cons_of_ne_nil (natDigits_ne_nil (v.natAbs / 10))
    have hhead : c ∈ decDigits := natDigits_mem c (by rw [e]; exact List.mem_cons_self c rest)
    rw [hrend]
    unfold parseDecimal?
    rw [htrim, e, List.cons_append]
    simp only [if_neg (decDigits_not_sign c hhead).1, if_neg (decDigits_not_sign c hhead).2]
    rw [show c :: (rest ++ '.' :: [Nat.digitChar (v.natAbs % 10)]) =
      (c :: rest) ++ '.' :: [Nat.digitChar (v.natAbs % 10)] from rfl, ← e, hcore]
    rw [mkRat_tenths]
    have : ((v.natAbs : Nat) : Int) = v := by omega
    rw [this]

theorem roundTo1_mul_ten {q : ℚ} {v : Int} (h : q * 10 = ((v : Int) : ℚ)) : roundTo1 q = v := by
  have hden : ((q.den : Nat) : ℚ) ≠ 0 := by
    exact_mod_cast q.den_nz
  have hq : ((q.num : Int) : ℚ) / ((q.den : Nat) : ℚ) * 10 = ((v : Int) : ℚ) := by
    rw [Rat.num_div_den q] at *
    exact h
  have he : ((10 * q.num : Int) : ℚ) = ((v * (q.den : Int) : Int) : ℚ) := by
    push_cast
    field_simp at hq
    linarith
  have heInt : 10 * q.num = v * (q.den : Int) := by exact_mod_cast he
  have hdpos : (0 : Int) < (q.den : Int) := by exact_mod_cast q.pos
  unfold roundTo1 roundHalfEvenFrac
  rw [heInt, Int.mul_fdiv_cancel _ (by omega)]
  simp only [sub_self]
  rw [if_pos (by omega)]

theorem roundTo1_tenths (v : Int) : roundTo1 ((v : ℚ) / 10) = v :=
  roundTo1_mul_ten (by field_simp)

theorem tenths_range_iff (v : Int) :
    (-5 ≤ (v : ℚ) / 10 ∧ (v : ℚ) / 10 ≤ 100) ↔ (-50 ≤ v ∧ v ≤ 1000) := by
  rw [le_div_iff₀ (by norm_num : (0 : ℚ) < 10), div_le_iff₀ (by norm_num : (0 : ℚ) < 10)]
  have h1 : (-5 : ℚ) * 10 = ((-50 : Int) : ℚ) := by norm_num
  have h2 : (100 : ℚ) * 10 = ((1000 : Int) : ℚ) := by norm_num
  rw [h1, h2, Int.cast_le, Int.cast_le]

/-! ### Dictionary lemmas -/

theorem dictGet?_dictSet_self (d : Dict) (k v : Int) :
    dictGet? (dictSet d k v) k = some v := by
  induction d with
  | nil => simp [dictSet, dictGet?]
  | cons p rest ih =>
    by_cases hp : p.1 = k
    · simp [dictSet, dictGet?, hp]
    · simp [dictSet, dictGet?, hp, ih]

theorem dictGet?_dictSet_ne (d : Dict) (k v k' : Int) (h : k' ≠ k) :
    dictGet? (dictSet d k v) k' = dictGet? d k' := by
  have h' : k ≠ k' := Ne.symm h
  induction d with
  | nil => simp [dictSet, dictGet?, h']
  | cons p rest ih =>
    by_cases hp : p.1 = k
    · simp [dictSet, dictGet?, hp, h']
    · by_cases hpk : p.1 = k'
      · simp [dictSet, dictGet?, hp, hpk, h]
      · simp [dictSet, dictGet?, hp, hpk, ih]

theorem dictKeys_dictSet (d : Dict) (k v : Int) :
    ∀ y ∈ dictKeys (dictSet d k v), y ∈ dictKeys d ∨ y = k := by
  intro y hy
  induction d with
  | nil => simpa [dictSet, dictKeys] using hy
  | cons p rest ih =>
    by_cases hp : p.1 = k
    · simp only [dictSet, if_pos hp, dictKeys, List.map_cons, List.mem_cons] at hy ⊢
      rcases hy with rfl | hy
      · exact Or.inr rfl
      · exact Or.inl (Or.inr hy)
    · simp only [dictSet, if_neg hp, dictKeys, List.map_cons, List.mem_cons] at hy ⊢
      rcases hy with rfl | hy
      · exact Or.inl (Or.inl rfl)
      · rcases ih hy with h | h
        · exact Or.inl (Or.inr h)
        · exact Or.inr h

theorem dictGet?_mem_keys {d : Dict} {k : Int} :
    k ∈ dictKeys d ↔ ∃ v, dictGet? d k = some v := by
  induction d with
  | nil => simp [dictKeys, dictGet?]
  | cons p rest ih =>
    by_cases hpk : p.1 = k
    · simp [dictKeys, dictGet?, hpk]
    · simp only [dictKeys, List.map_cons, List.mem_cons, dictGet?, if_neg hpk] at ih ⊢
      constructor
      · rintro (h | h)
        · exact absurd h.symm hpk
        · exact ih.mp h
      · intro h
        exact Or.inr (ih.mpr h)

theorem dictGet?_dictUpdate_not_mem (d e : Dict) (k : Int) (h : k ∉ dictKeys e) :
    dictGet? (dictUpdate d e) k = dictGet? d k := by
  induction e generalizing d with
  | nil => rfl
  | cons p rest ih =>
    have hk : k ∉ dictKeys rest := by
      intro hm
      exact h (by unfold dictKeys at hm ⊢; simp [hm])
    have hne : k ≠ p.1 := by
      intro he
      exact h (by unfold dictKeys; simp [he])
    unfold dictUpdate at ih ⊢
    rw [List.foldl_cons, ih (dictSet d p.1 p.2) hk, dictGet?_dictSet_ne d p.1 p.2 k hne]

/-! ### Splitting lemmas -/

theorem splitOnChar_no_sep {sep : Char} : ∀ {l : List Char}, sep ∉ l → splitOnChar sep l = [l] := by
  intro l
  induction l with
  | nil => intro _; rfl
  | cons c r ih =>
    intro h
    have hc : ¬ c = sep := fun e => h (e ▸ List.mem_cons_self c r)
    have hr : sep ∉ r := fun hm => h (List.mem_cons_of_mem c hm)
    unfold splitOnChar
    rw [if_neg hc, ih hr]

theorem splitOnChar_append_sep {sep : Char} :
    ∀ (xs : List Char) {ys : List Char}, sep ∉ xs →
      splitOnChar sep (xs ++ sep :: ys) = xs :: splitOnChar sep ys := by
  intro xs
  induction xs with
  | nil =>
    intro ys _
    simp [splitOnChar]
  | cons c r ih =>
    intro ys h
    have hc : ¬ c = sep := fun e => h (e ▸ List.mem_cons_self c r)
    have hr : sep ∉ r := fun hm => h (List.mem_cons_of_mem c hm)
    rw [List.cons_append]
    simp only [splitOnChar, if_neg hc, ih hr]

theorem splitLines_two (l1 l2 : List Char) (h1 : ('\n') ∉ l1) (h2 : ('\n') ∉ l2) :
    splitLines (l1 ++ '\n' :: (l2 ++ ['\n'])) = [l1, l2] := by
  unfold splitLines
  rw [splitOnChar_append_sep l1 h1, splitOnChar_append_sep l2 h2]
  rfl

theorem not_mem_of_sub {l S : List Char} {x : Char} (hsub : ∀ c ∈ l, c ∈ S) (hx : x ∉ S) :
    x ∉ l := fun hm => hx (hsub x hm)

theorem not_mem_append_cons {x sep : Char} {A B : List Char}
    (hA : x ∉ A) (hs : x ≠ sep) (hB : x ∉ B) : x ∉ A ++ sep :: B := by
  intro h
  rcases List.mem_append.mp h with h | h
  · exact hA h
  · rcases List.mem_cons.mp h with h | h
    · exact hs h
    · exact hB h

/-! ### Row scanning and the delimiter loop -/

theorem scanRow_single_cell (cy : Int) (d : Dict) (l : List Char) : scanRow cy d [l] = d := by
  simp [scanRow]

theorem scanRow_pair (cy y v : Int) (hy1 : 1993 ≤ y) (hy2 : y ≤ cy)
    (hv1 : -50 ≤ v) (hv2 : v ≤ 1000) :
    scanRow cy [] [intDecString y, renderTenths v] = [(y, v)] := by
  have hclean1 : cleanCell (intDecString y) = intDecString y :=
    cleanCell_eq_self_of_num intDecString_mem
  have hclean2 : cleanCell (renderTenths v) = renderTenths v :=
    cleanCell_eq_self_of_num renderTenths_mem
  unfold scanRow
  simp only [List.map_cons, List.map_nil, hclean1, hclean2, List.tail_cons,
    List.zip_cons_cons, List.zip_nil_right, List.foldl_cons, List.foldl_nil]
  show scanPair cy [] (intDecString y) (renderTenths v) = [(y, v)]
  have hr := (tenths_range_iff v).mpr ⟨hv1, hv2⟩
  unfold scanPair
  rw [parseInt?_intDecString, parseDecimal?_renderTenths]
  show (if 1993 ≤ y ∧ y ≤ cy ∧ -5 ≤ (v : ℚ) / 10 ∧ (v : ℚ) / 10 ≤ 100 then
      dictSet [] y (roundTo1 ((v : ℚ) / 10)) else []) = [(y, v)]
  rw [if_pos ⟨hy1, hy2, hr.1, hr.2⟩, roundTo1_tenths]
  rfl

theorem csvRows_two {sep : Char} {raw l1 l2 : List Char}
    (hsplit : splitLines raw = [l1, l2]) :
    csvRows sep raw = [splitOnChar sep l1, splitOnChar sep l2] := by
  unfold csvRows
  rw [hsplit]
  rfl

theorem parseLoop_step_fail (cy : Int) (raw : List Char) (sep : Char) (more : List Char)
    (l1 l2 : List Char) (hsplit : splitLines raw = [l1, l2])
    (h1 : sep ∉ l1) (h2 : sep ∉ l2) :
    parseLoop cy raw (sep :: more) [] = parseLoop cy raw more [] := by
  have hrows : csvRows sep raw = [[l1], [l2]] := by
    rw [csvRows_two hsplit, splitOnChar_no_sep h1, splitOnChar_no_sep h2]
  simp only [parseLoop, hrows]
  rw [if_neg (by norm_num)]
  simp only [List.drop_one, List.tail_cons, List.foldl_cons, List.foldl_nil,
    scanRow_single_cell]
  rfl

theorem parseLoop_step_success (cy y v : Int) (raw : List Char) (sep : Char) (more : List Char)
    (hdr : List Char) (hsplit : splitLines raw = [hdr, mkDataRow sep y v])
    (hs1 : sep ∉ intDecString y) (hs2 : sep ∉ renderTenths v)
    (hy1 : 1993 ≤ y) (hy2 : y ≤ cy) (hv1 : -50 ≤ v) (hv2 : v ≤ 1000) :
    parseLoop cy raw (sep :: more) [] = [(y, v)] := by
  have hrow : splitOnChar sep (mkDataRow sep y v) = [intDecString y, renderTenths v] := by
    unfold mkDataRow
    rw [splitOnChar_append_sep _ hs1, splitOnChar_no_sep hs2]
  have hrows : csvRows sep raw = [splitOnChar sep hdr, [intDecString y, renderTenths v]] := by
    rw [csvRows_two hsplit, hrow]
  simp only [parseLoop, hrows]
  rw [if_neg (by norm_num)]
  simp only [List.drop_one, List.tail_cons, List.foldl_cons, List.foldl_nil,
    scanRow_pair cy y v hy1 hy2 hv1 hv2]
  rfl

/-- The characters of the constructed raw text rows. -/
theorem mkDataRow_not_mem {x sep : Char} {y v : Int} (hx : x ∉ numChars) (hs : x ≠ sep) :
    x ∉ mkDataRow sep y v :=
  not_mem_append_cons (not_mem_of_sub intDecString_mem hx) hs
    (not_mem_of_sub renderTenths_mem hx)

theorem mkHeader_not_mem {x sep : Char} (hy : x ∉ ("year").toList)
    (hv : x ∉ ("value").toList) (hs : x ≠ sep) :
    x ∉ ("year").toList ++ sep :: ("value").toList :=
  not_mem_append_cons hy hs hv

theorem splitLines_mkRaw (sep : Char) (y v : Int) (hnl : ('\n') ≠ sep) :
    splitLines (mkRaw sep y v) =
      [("year").toList ++ sep :: ("value").toList, mkDataRow sep y v] := by
  unfold mkRaw
  exact splitLines_two _ _
    (mkHeader_not_mem (by decide) (by decide) hnl)
    (mkDataRow_not_mem (by decide) hnl)

/-- C1: for every year `1993 ≤ y ≤ current_year`, every value `v` (in
tenths, `-5.0 ≤ v/10 ≤ 100.0`) and each of the three supported
delimiters, parsing a raw text with a data row encoding `(y, v)` yields
a mapping with `y ↦ v`. -/
theorem C1_parse_row_roundtrip (cy y v : Int) (sep : Char)
    (hsep : sep = ',' ∨ sep = ';' ∨ sep = '\t')
    (hy1 : 1993 ≤ y) (hy2 : y ≤ cy) (hv1 : -50 ≤ v) (hv2 : v ≤ 1000) :
    dictGet? (parse_data cy (mkRaw sep y v)) y = some v := by
  have hone : dictGet? ([(y, v)] : Dict) y = some v := by simp [dictGet?]
  rcases hsep with rfl | rfl | rfl
  · unfold parse_data
    rw [parseLoop_step_success cy y v _ ',' _ _
      (splitLines_mkRaw ',' y v (by decide))
      (not_mem_of_sub intDecString_mem (by decide))
      (not_mem_of_sub renderTenths_mem (by decide)) hy1 hy2 hv1 hv2]
    exact hone
  · unfold parse_data
    have hsplit := splitLines_mkRaw ';' y v (by decide)
    rw [parseLoop_step_fail cy _ ',' _ _ _ hsplit
      (mkHeader_not_mem (by decide) (by decide) (by decide))
      (mkDataRow_not_mem (by decide) (by decide))]
    rw [parseLoop_step_success cy y v _ ';' _ _ hsplit
      (not_mem_of_sub intDecString_mem (by decide))
      (not_mem_of_sub renderTenths_mem (by decide)) hy1 hy2 hv1 hv2]
    exact hone
  · unfold parse_data
    have hsplit := splitLines_mkRaw '\t' y v (by decide)
    rw [parseLoop_step_fail cy _ ',' _ _ _ hsplit
      (mkHeader_not_mem (by decide) (by decide) (by decide))
      (mkDataRow_not_mem (by decide) (by decide))]
    rw [parseLoop_step_fail cy _ ';' _ _ _ hsplit
      (mkHeader_not_mem (by decide) (by decide) (by decide))
      (mkDataRow_not_mem (by decide) (by decide))]
    rw [parseLoop_step_success cy y v _ '\t' _ _ hsplit
      (not_mem_of_sub intDecString_mem (by decide))
      (not_mem_of_sub renderTenths_mem (by decide)) hy1 hy2 hv1 hv2]
    exact hone

/-- Witness for C1 at concrete inputs. -/
theorem C1_parse_row_roundtrip_witness :
    ((',') = ',' ∨ (',') = ';' ∨ (',') = '\t') ∧ (1993 : Int) ≤ 2000 ∧ (2000 : Int) ≤ 2025 ∧
      (-50 : Int) ≤ 107 ∧ (107 : Int) ≤ 1000 ∧
      dictGet? (parse_data 2025 (mkRaw ',' 2000 107)) 2000 = some 107 :=
  ⟨Or.inl rfl, by decide, by decide, by decide, by decide,
    C1_parse_row_roundtrip 2025 2000 107 ',' (Or.inl rfl) (by decide) (by decide)
      (by decide) (by decide)⟩

/-! ### C8: boundary validation -/

theorem scanPair_eval (cy : Int) (d : Dict) (a b : List Char) (y : Int) (q : ℚ)
    (ha : parseInt? a = some y) (hb : parseDecimal? b = some q) :
    scanPair cy d a b =
      if 1993 ≤ y ∧ y ≤ cy ∧ -5 ≤ q ∧ q ≤ 100 then dictSet d y (roundTo1 q) else d := by
  unfold scanPair
  rw [ha, hb]

/-- C8: the range validation of `fetch_data` is inclusive at both value
bounds (-5.0 and 100.0 accepted, -5.1 and 100.1 rejected) and at both
year bounds (1993 and the current year accepted, 1992 and the next year
rejected). -/
theorem C8_boundaries (cy : Int) (h : 1993 ≤ cy) :
    scanPair cy [] (("1993").toList) (("-5.0").toList) = [(1993, -50)] ∧
    scanPair cy [] (("1993").toList) (("100.0").toList) = [(1993, 1000)] ∧
    scanPair cy [] (("1993").toList) (("-5.1").toList) = [] ∧
    scanPair cy [] (("1993").toList) (("100.1").toList) = [] ∧
    scanPair cy [] (intDecString cy) (("1.0").toList) = [(cy, 10)] ∧
    scanPair cy [] (("1992").toList) (("1.0").toList) = [] ∧
    scanPair cy [] (intDecString (cy + 1)) (("1.0").toList) = [] := by
  refine ⟨?_, ?_, ?_, ?_, ?_, ?_, ?_⟩
  · rw [scanPair_eval cy [] _ _ 1993 (-5) (by decide) (by decide),
      if_pos ⟨by norm_num, h, by norm_num, by norm_num⟩]
    decide
  · rw [scanPair_eval cy [] _ _ 1993 100 (by decide) (by decide),
      if_pos ⟨by norm_num, h, by norm_num, by norm_num⟩]
    decide
  · rw [scanPair_eval cy [] _ _ 1993 (mkRat (-51) 10) (by decide) (by decide),
      if_neg (by
        rintro ⟨-, -, hge, -⟩
        revert hge
        decide)]
  · rw [scanPair_eval cy [] _ _ 1993 (mkRat 1001 10) (by decide) (by decide),
      if_neg (by
        rintro ⟨-, -, -, hle⟩
        revert hle
        decide)]
  · rw [scanPair_eval cy [] _ _ cy 1 (parseInt?_intDecString cy) (by decide),
      if_pos ⟨h, le_refl cy, by norm_num, by norm_num⟩]
    simp [dictSet]
    decide
  · rw [scanPair_eval cy [] _ _ 1992 1 (by decide) (by decide),
      if_neg (by rintro ⟨hge, -⟩; omega)]
  · rw [scanPair_eval cy [] _ _ (cy + 1) 1 (parseInt?_intDecString (cy + 1)) (by decide),
      if_neg (by rintro ⟨-, hle, -⟩; omega)]

/-- Witness for C8 at the concrete current year 2025. -/
theorem C8_boundaries_witness :
    (1993 : Int) ≤ 2025 ∧
      (scanPair 2025 [] (("1993").toList) (("-5.0").toList) = [(1993, -50)] ∧
       scanPair 2025 [] (("1993").toList) (("100.0").toList) = [(1993, 1000)] ∧
       scanPair 2025 [] (("1993").toList) (("-5.1").toList) = [] ∧
       scanPair 2025 [] (("1993").toList) (("100.1").toList) = [] ∧
       scanPair 2025 [] (intDecString 2025) (("1.0").toList) = [(2025, 10)] ∧
       scanPair 2025 [] (("1992").toList) (("1.0").toList) = [] ∧
       scanPair 2025 [] (intDecString (2025 + 1)) (("1.0").toList) = []) :=
  ⟨by decide, C8_boundaries 2025 (by decide)⟩

/-! ### Parser key-range invariant, merging, and C6 / C7 -/

theorem scanPair_keys (cy : Int) (d : Dict) (a b : List Char) :
    ∀ y ∈ dictKeys (scanPair cy d a b), y ∈ dictKeys d ∨ (1993 ≤ y ∧ y ≤ cy) := by
  intro y hy
  unfold scanPair at hy
  rcases h1 : parseInt? a with - | y'
  all_goals rw [h1] at hy
  · exact Or.inl hy
  rcases h2 : parseDecimal? b with - | q
  all_goals rw [h2] at hy
  · exact Or.inl hy
  simp only [] at hy
  split at hy
  · rename_i hrange
    rcases dictKeys_dictSet d y' (roundTo1 q) y hy with hm | rfl
    · exact Or.inl hm
    · exact Or.inr ⟨hrange.1, hrange.2.1⟩
  · exact Or.inl hy

theorem foldl_scanPair_keys (cy : Int) (ps : List (List Char × List Char)) :
    ∀ (d : Dict), ∀ y ∈ dictKeys (ps.foldl (fun acc p => scanPair cy acc p.1 p.2) d),
      y ∈ dictKeys d ∨ (1993 ≤ y ∧ y ≤ cy) := by
  induction ps with
  | nil => intro d y hy; exact Or.inl hy
  | cons p rest ih =>
    intro d y hy
    rw [List.foldl_cons] at hy
    rcases ih (scanPair cy d p.1 p.2) y hy with hm | hr
    · exact scanPair_keys cy d p.1 p.2 y hm
    · exact Or.inr hr

theorem scanRow_keys (cy : Int) (d : Dict) (row : List (List Char)) :
    ∀ y ∈ dictKeys (scanRow cy d row), y ∈ dictKeys d ∨ (1993 ≤ y ∧ y ≤ cy) := by
  intro y hy
  unfold scanRow at hy
  exact foldl_scanPair_keys cy _ d y hy

theorem foldl_scanRow_keys (cy : Int) (rows : List (List (List Char))) :
    ∀ (d : Dict), ∀ y ∈ dictKeys (rows.foldl (scanRow cy) d),
      y ∈ dictKeys d ∨ (1993 ≤ y ∧ y ≤ cy) := by
  induction rows with
  | nil => intro d y hy; exact Or.inl hy
  | cons r rest ih =>
    intro d y hy
    rw [List.foldl_cons] at hy
    rcases ih (scanRow cy d r) y hy with hm | hr
    · exact scanRow_keys cy d r y hm
    · exact Or.inr hr

theorem parseLoop_keys (cy : Int) (raw : List Char) : ∀ (seps : List Char) (d : Dict),
    (∀ y ∈ dictKeys d, 1993 ≤ y ∧ y ≤ cy) →
    ∀ y ∈ dictKeys (parseLoop cy raw seps d), 1993 ≤ y ∧ y ≤ cy := by
  intro seps
  induction seps with
  | nil => intro d hd y hy; exact hd y hy
  | cons sep more ih =>
    intro d hd y hy
    simp only [parseLoop] at hy
    split at hy
    · exact ih d hd y hy
    · have hfold : ∀ z ∈ dictKeys ((csvRows sep raw).drop 1 |>.foldl (scanRow cy) d),
          1993 ≤ z ∧ z ≤ cy := by
        intro z hz
        rcases foldl_scanRow_keys cy _ d z hz with hm | hr
        · exact hd z hm
        · exact hr
      split at hy
      · exact ih _ hfold y hy
      · exact hfold y hy

theorem parse_data_keys (cy : Int) (raw : List Char) :
    ∀ y ∈ dictKeys (parse_data cy raw), 1993 ≤ y ∧ y ≤ cy :=
  parseLoop_keys cy raw _ [] (by simp [dictKeys])

/-- C6: the fixed historical entries for 1990, 1991 and 1992 are never
overwritten by data returned by the parser: the merged mapping always
carries their hard-coded values (9.7, 56.6, 11.1, i.e. 97/566/111
tenths). -/
theorem C6_fixed_preserved (cy : Int) (raw : List Char) :
    dictGet? (combinedDict (parse_data cy raw)) 1990 = some 97 ∧
    dictGet? (combinedDict (parse_data cy raw)) 1991 = some 566 ∧
    dictGet? (combinedDict (parse_data cy raw)) 1992 = some 111 := by
  have hk : ∀ k : Int, k < 1993 → k ∉ dictKeys (parse_data cy raw) := by
    intro k hklt hm
    have := parse_data_keys cy raw k hm
    omega
  refine ⟨?_, ?_, ?_⟩ <;>
    (unfold combinedDict merge;
     rw [dictGet?_dictUpdate_not_mem _ _ _ (hk _ (by norm_num))];
     decide)

theorem dictGet?_not_mem {d : Dict} {k : Int} (h : k ∉ dictKeys d) : dictGet? d k = none := by
  cases he : dictGet? d k with
  | none => rfl
  | some v => exact absurd (dictGet?_mem_keys.mpr ⟨v, he⟩) h

theorem dictUpdate_cons (d : Dict) (p : Int × Int) (rest : Dict) :
    dictUpdate d (p :: rest) = dictUpdate (dictSet d p.1 p.2) rest := rfl

theorem dictGet?_dictUpdate_mem (e : Dict) (he : (dictKeys e).Nodup) :
    ∀ (d : Dict), ∀ y ∈ dictKeys e, dictGet? (dictUpdate d e) y = dictGet? e y := by
  induction e with
  | nil => intro d y hy; simp [dictKeys] at hy
  | cons p rest ih =>
    intro d y hy
    have hnd : (dictKeys rest).Nodup := (List.nodup_cons.mp (by exact he)).2
    have hpk : p.1 ∉ dictKeys rest := (List.nodup_cons.mp (by exact he)).1
    rw [dictUpdate_cons]
    rcases List.mem_cons.mp hy with rfl | hy
    · rw [dictGet?_dictUpdate_not_mem _ _ _ hpk, dictGet?_dictSet_self]
      simp [dictGet?]
    · have hne : y ≠ p.1 := fun e => hpk (e ▸ hy)
      have hne' : p.1 ≠ y := Ne.symm hne
      rw [ih hnd (dictSet d p.1 p.2) y hy]
      simp only [dictGet?, if_neg hne']

theorem dictUpdate_nil_get (f : Dict) (hf : (dictKeys f).Nodup) (y : Int) :
    dictGet? (dictUpdate [] f) y = dictGet? f y := by
  by_cases hy : y ∈ dictKeys f
  · exact dictGet?_dictUpdate_mem f hf [] y hy
  · rw [dictGet?_dictUpdate_not_mem _ _ _ hy, dictGet?_not_mem hy]
    rfl

/-- C7: the merge of `build_raw_block` is right-biased (the fetched
mapping wins on every key it contains), keeps the fixed value on keys
only in the fixed mapping, and is commutative as a mapping when the key
sets are disjoint. -/
theorem C7_merge_properties (f e : Dict) (hf : (dictKeys f).Nodup)
    (he : (dictKeys e).Nodup) :
    (∀ y ∈ dictKeys e, dictGet? (merge f e) y = dictGet? e y) ∧
    (∀ y, y ∈ dictKeys f → y ∉ dictKeys e → dictGet? (merge f e) y = dictGet? f y) ∧
    ((∀ y, y ∈ dictKeys f → y ∉ dictKeys e) →
      ∀ k, dictGet? (merge f e) k = dictGet? (merge e f) k) := by
  refine ⟨?_, ?_, ?_⟩
  · intro y hy
    exact dictGet?_dictUpdate_mem e he _ y hy
  · intro y hyf hye
    unfold merge
    rw [dictGet?_dictUpdate_not_mem _ _ _ hye, dictUpdate_nil_get f hf]
  · intro hdisj k
    by_cases hke : k ∈ dictKeys e
    · have hkf : k ∉ dictKeys f := fun hm => hdisj k hm hke
      unfold merge
      rw [dictGet?_dictUpdate_mem e he _ k hke, dictGet?_dictUpdate_not_mem _ _ _ hkf,
        dictUpdate_nil_get e he]
    · by_cases hkf : k ∈ dictKeys f
      · unfold merge
        rw [dictGet?_dictUpdate_not_mem _ _ _ hke, dictUpdate_nil_get f hf,
          dictGet?_dictUpdate_mem f hf _ k hkf]
      · unfold merge
        rw [dictGet?_dictUpdate_not_mem _ _ _ hke, dictUpdate_nil_get f hf,
          dictGet?_not_mem hkf]
        rw [dictGet?_dictUpdate_not_mem _ _ _ hkf, dictUpdate_nil_get e he,
          dictGet?_not_mem hke]

/-- Witness for C7 at concrete mappings. -/
theorem C7_merge_properties_witness :
    (dictKeys [((1990 : Int), (97 : Int))]).Nodup ∧
    (dictKeys [((2023 : Int), (107 : Int))]).Nodup ∧
    ((∀ y ∈ dictKeys [((2023 : Int), (107 : Int))],
        dictGet? (merge [(1990, 97)] [(2023, 107)]) y =
          dictGet? [((2023 : Int), (107 : Int))] y) ∧
     (∀ y, y ∈ dictKeys [((1990 : Int), (97 : Int))] →
        y ∉ dictKeys [((2023 : Int), (107 : Int))] →
        dictGet? (merge [(1990, 97)] [(2023, 107)]) y =
          dictGet? [((1990 : Int), (97 : Int))] y) ∧
     ((∀ y, y ∈ dictKeys [((1990 : Int), (97 : Int))] →
        y ∉ dictKeys [((2023 : Int), (107 : Int))]) →
       ∀ k, dictGet? (merge [(1990, 97)] [(2023, 107)]) k =
         dictGet? (merge [(2023, 107)] [(1990, 97)]) k)) :=
  ⟨by decide, by decide, C7_merge_properties [(1990, 97)] [(2023, 107)] (by decide) (by decide)⟩

/-! ### C9: annotation priority chain -/

/-- C9: annotations follow the strict priority chain 1990, else 1991,
else 1992, else the maximum year; no other year is annotated, and a
fixed year that is also the maximum year keeps its fixed annotation
(the first three equations hold for every `maxY`, including
`maxY = 1990/1991/1992`). -/
theorem C9_annotation_priority (date : List Char) (maxY y : Int) :
    commentFor date maxY 1990 = histNote ∧
    commentFor date maxY 1991 = libNote ∧
    commentFor date maxY 1992 = histNote ∧
    (y ≠ 1990 → y ≠ 1991 → y ≠ 1992 → y = maxY → commentFor date maxY y = updNote date) ∧
    (y ≠ 1990 → y ≠ 1991 → y ≠ 1992 → y ≠ maxY → commentFor date maxY y = []) := by
  refine ⟨by simp [commentFor], by simp [commentFor], by simp [commentFor], ?_, ?_⟩
  · intro h1 h2 h3 h4
    subst h4
    simp [commentFor, h1, h2, h3]
  · intro h1 h2 h3 h4
    simp [commentFor, h1, h2, h3, h4]

/-- Witness for C9: the 1990-is-max case keeps the fixed note, a plain
max year gets the update note, and a middle year gets none. -/
theorem C9_annotation_priority_witness :
    commentFor [] 1990 1990 = histNote ∧
    commentFor [] 2024 2024 = updNote [] ∧
    commentFor [] 2024 2000 = [] :=
  ⟨(C9_annotation_priority [] 1990 0).1,
   (C9_annotation_priority [] 2024 2024).2.2.2.1 (by decide) (by decide) (by decide) rfl,
   (C9_annotation_priority [] 2024 2000).2.2.2.2 (by decide) (by decide) (by decide)
     (by decide)⟩

/-! ### C2: exit code -/

/-- C2: every terminal path of the program exits with code 0 — fetch
failure, empty parse, missing marker, no-change, and successful update
alike. -/
theorem C2_exit_zero (fetchOk : Bool) (raw : List Char) (cy : Int) (date html : List Char) :
    (mainRun fetchOk raw cy date html).exitCode = 0 := by
  simp only [mainRun]
  split <;> split <;> rfl

/-! ### Patcher: matching the marker pattern -/

theorem openTok_no_brace : closeBrace ∉ openTok := by decide

theorem bne_closeBrace_of_not_mem {body : List Char} (h : closeBrace ∉ body) :
    ∀ c ∈ body, (c != closeBrace) = true := by
  intro c hc
  exact bne_iff_ne.mpr (fun e => h (e ▸ hc))

theorem matchRawAt_block (body a : List Char) (hne : body ≠ []) (hnb : closeBrace ∉ body) :
    matchRawAt ((openTok ++ body ++ closeBrace :: [';']) ++ a) =
      some (openTok ++ body ++ closeBrace :: [';'], a) := by
  have hshape : (openTok ++ body ++ closeBrace :: [';']) ++ a =
      openTok ++ (body ++ closeBrace :: ';' :: a) := by
    simp
  have htw : (body ++ closeBrace :: ';' :: a).takeWhile (fun c => c != closeBrace) = body :=
    takeWhile_append_stop body (bne_closeBrace_of_not_mem hnb) (bne_self_eq_false closeBrace)
  rw [hshape]
  unfold matchRawAt
  rw [if_pos (List.prefix_append openTok _)]
  simp only [List.drop_left, htw]
  simp [hne]

theorem matchRawAt_some {l m a : List Char} (h : matchRawAt l = some (m, a)) :
    isRawBlock m ∧ l = m ++ a := by
  unfold matchRawAt at h
  by_cases hp : openTok <+: l
  · rw [if_pos hp] at h
    obtain ⟨t, ht⟩ := hp
    subst ht
    rw [List.drop_left] at h
    simp only [] at h
    cases hr : t.drop ((t.takeWhile (fun c => c != closeBrace)).length) with
    | nil => rw [hr] at h; exact absurd h (by simp)
    | cons b1 r1 =>
      cases r1 with
      | nil => rw [hr] at h; exact absurd h (by simp)
      | cons s after =>
        rw [hr] at h
        simp only [] at h
        by_cases hcond : t.takeWhile (fun c => c != closeBrace) ≠ [] ∧
            b1 = closeBrace ∧ s = ';'
        · rw [if_pos hcond] at h
          rw [Option.some_inj] at h
          have hm : m = openTok ++ List.takeWhile (fun c => c != closeBrace) t ++
              [closeBrace, ';'] := (congrArg Prod.fst h).symm
          have ha : a = after := (congrArg Prod.snd h).symm
          have hnb : closeBrace ∉ t.takeWhile (fun c => c != closeBrace) := by
            intro hmem
            have := List.mem_takeWhile_imp hmem
            simp at this
          have hts : t = t.takeWhile (fun c => c != closeBrace) ++
              closeBrace :: ';' :: after := by
            have h1 : t.takeWhile (fun c => c != closeBrace) =
                t.take ((t.takeWhile (fun c => c != closeBrace)).length) :=
              List.prefix_iff_eq_take.mp ( List.takeWhile_prefix _)
            calc t = t.take ((t.takeWhile (fun c => c != closeBrace)).length) ++
                  t.drop ((t.takeWhile (fun c => c != closeBrace)).length) :=
                (List.take_append_drop _ t).symm
            _ = t.takeWhile (fun c => c != closeBrace) ++ closeBrace :: ';' :: after := by
                rw [← h1, hr, hcond.2.1, hcond.2.2]
          constructor
          · exact ⟨t.takeWhile (fun c => c != closeBrace), hcond.1, hnb, hm⟩
          · rw [hm, ha]
            conv_lhs => rw [hts]
            simp
        · rw [if_neg hcond] at h
          exact absurd h (by simp)
  · rw [if_neg hp] at h
    exact absurd h (by simp)

theorem mem_split_first {x : Char} : ∀ {l : List Char}, x ∈ l →
    ∃ u w, x ∉ u ∧ l = u ++ x :: w := by
  intro l
  induction l with
  | nil => intro h; simp at h
  | cons c r ih =>
    intro h
    by_cases hc : c = x
    · exact ⟨[], r, by simp, by rw [hc]; rfl⟩
    · have hx : x ∈ r := by
        rcases List.mem_cons.mp h with h | h
        · exact absurd h.symm hc
        · exact h
      obtain ⟨u, w, hu, he⟩ := ih hx
      refine ⟨c :: u, w, ?_, by rw [List.cons_append, ← he]⟩
      intro hm
      rcases List.mem_cons.mp hm with hm | hm
      · exact hc hm.symm
      · exact hu hm

theorem cbfree_split_eq {u v x y : List Char}
    (hu : closeBrace ∉ u) (hv : closeBrace ∉ v)
    (he : u ++ closeBrace :: x = v ++ closeBrace :: y) : u = v ∧ x = y := by
  induction u generalizing v with
  | nil =>
    cases v with
    | nil => simpa using he
    | cons c w =>
      exfalso
      simp only [List.nil_append, List.cons_append, List.cons.injEq] at he
      apply hv
      rw [← he.1]
      exact List.mem_cons_self _ _
  | cons c w ih =>
    cases v with
    | nil =>
      exfalso
      simp only [List.cons_append, List.nil_append, List.cons.injEq] at he
      apply hu
      rw [he.1]
      exact List.mem_cons_self _ _
    | cons c' w' =>
      simp only [List.cons_append, List.cons.injEq] at he
      obtain ⟨rfl, he2⟩ := he
      have hu' : closeBrace ∉ w := fun hm => hu (List.mem_cons_of_mem _ hm)
      have hv' : closeBrace ∉ w' := fun hm => hv (List.mem_cons_of_mem _ hm)
      obtain ⟨h1, h2⟩ := ih hu' hv' he2
      exact ⟨by rw [h1], h2⟩

theorem isRawBlock_headMarker {m a : List Char} (hm : isRawBlock m) :
    headMarker (m ++ a) := by
  obtain ⟨bd, h1, h2, rfl⟩ := hm
  exact ⟨bd, a, h1, h2, by simp⟩

/-- The opening token has no self-overlap: no proper non-empty prefix of
it is also a suffix, so a match cannot start strictly inside the token. -/
theorem openTok_no_border : ∀ j, j < openTok.length → 1 ≤ j →
    openTok.take (openTok.length - j) ≠ openTok.drop j := by decide

theorem headMarker_transfer {b2 m m' a : List Char}
    (hm : isRawBlock m) (hm' : isRawBlock m')
    (h : headMarker (b2 ++ m' ++ a)) : headMarker (b2 ++ m ++ a) := by
  obtain ⟨bd, hbdne, hbdnb, hmeq⟩ := hm
  obtain ⟨bd', hbdne', hbdnb', hmeq'⟩ := hm'
  obtain ⟨body, rest, hbne, hbnb, heq⟩ := h
  rw [List.append_assoc, List.append_assoc] at heq
  by_cases hlen : openTok.length ≤ b2.length
  · have htake : b2.take openTok.length = openTok := by
      have hc := congrArg (List.take openTok.length) heq
      rw [List.take_append_eq_append_take, Nat.sub_eq_zero_of_le hlen] at hc
      simp only [List.take_zero, List.append_nil] at hc
      rw [hc, List.take_left]
    have hb2 : b2 = openTok ++ b2.drop openTok.length := by
      conv_lhs => rw [← List.take_append_drop openTok.length b2]
      rw [htake]
    have hcore : b2.drop openTok.length ++ (m' ++ a) =
        body ++ (closeBrace :: ';' :: rest) := by
      apply @List.append_cancel_left _ openTok _ _
      rw [← List.append_assoc, ← hb2, heq]
    by_cases hcb : closeBrace ∈ b2.drop openTok.length
    · obtain ⟨u, w, hucb, hb3⟩ := mem_split_first hcb
      have hsplit : u ++ closeBrace :: (w ++ (m' ++ a)) =
          body ++ closeBrace :: (';' :: rest) := by
        rw [hb3] at hcore
        simpa [List.append_assoc] using hcore
      obtain ⟨hub, htail⟩ := cbfree_split_eq hucb hbnb hsplit
      cases w with
      | nil =>
        exfalso
        rw [hmeq'] at htail
        have hopen : openTok = 'c' :: ("onst RAW = \x7b").toList := by decide
        rw [hopen] at htail
        simp only [List.nil_append, List.cons_append, List.append_assoc,
          List.cons.injEq] at htail
        exact absurd htail.1 (by decide)
      | cons c0 w2 =>
        have htail' : c0 :: (w2 ++ (m' ++ a)) = ';' :: rest := by
          simpa using htail
        have hc0 : c0 = ';' := (List.cons.injEq _ _ _ _).mp htail' |>.1
        refine ⟨body, w2 ++ (m ++ a), hbne, hbnb, ?_⟩
        rw [hb2, hb3, hub, hc0, hmeq]
        simp [List.append_assoc]
    · refine ⟨b2.drop openTok.length ++ openTok ++ bd, a, ?_, ?_, ?_⟩
      · intro h0
        rw [List.append_assoc, List.append_eq_nil] at h0
        rw [List.append_eq_nil] at h0
        exact absurd h0.2.2 hbdne
      · intro hmem
        rw [List.append_assoc, List.mem_append] at hmem
        rcases hmem with hmem | hmem
        · exact hcb hmem
        · rw [List.mem_append] at hmem
          rcases hmem with hmem | hmem
          · exact openTok_no_brace hmem
          · exact hbdnb hmem
      · rw [hb2, hmeq]
        simp [List.append_assoc]
  · rcases Nat.eq_zero_or_pos b2.length with hz | hpos
    · have hb2 : b2 = [] := List.length_eq_zero.mp hz
      subst hb2
      simp only [List.nil_append]
      exact isRawBlock_headMarker ⟨bd, hbdne, hbdnb, hmeq⟩
    · exfalso
      have hj2 : b2.length < openTok.length := lt_of_not_ge hlen
      have hmlen : openTok.length ≤ m'.length := by
        rw [hmeq']
        simp [List.length_append]
      have hb2take : b2 = openTok.take b2.length := by
        have hc := congrArg (List.take b2.length) heq
        rw [List.take_left, List.take_append_eq_append_take,
          Nat.sub_eq_zero_of_le (le_of_lt hj2)] at hc
        simpa using hc
      have hfull : b2 ++ (m' ++ a).take (openTok.length - b2.length) = openTok := by
        have hc := congrArg (List.take openTok.length) heq
        rw [List.take_left] at hc
        rw [List.take_append_eq_append_take, List.take_of_length_le (le_of_lt hj2)] at hc
        exact hc
      have hfull2 : (m' ++ a).take (openTok.length - b2.length) =
          openTok.take (openTok.length - b2.length) := by
        rw [List.take_append_eq_append_take,
          Nat.sub_eq_zero_of_le (le_trans (Nat.sub_le _ _) hmlen)]
        simp only [List.take_zero, List.append_nil]
        rw [hmeq']
        rw [List.append_assoc, List.take_append_eq_append_take,
          Nat.sub_eq_zero_of_le (Nat.sub_le _ _)]
        simp
      have hsplit2 : b2 ++ openTok.drop b2.length = openTok := by
        nth_rewrite 1 [hb2take]
        exact List.take_append_drop _ _
      have hborder : openTok.take (openTok.length - b2.length) =
          openTok.drop b2.length := by
        apply @List.append_cancel_left _ b2 _ _
        rw [← hfull2, hfull, hsplit2]
      exact openTok_no_border b2.length hj2 hpos hborder

theorem openTok_ne_nil : openTok ≠ [] := by decide

theorem headMarker_of_match {l m a : List Char} (h : matchRawAt l = some (m, a)) :
    headMarker l := by
  obtain ⟨⟨bd, h1, h2, hm⟩, hl⟩ := matchRawAt_some h
  subst hm
  subst hl
  exact ⟨bd, a, h1, h2, by simp⟩

theorem match_of_headMarker {l : List Char} (h : headMarker l) : matchRawAt l ≠ none := by
  obtain ⟨body, rest, h1, h2, rfl⟩ := h
  rw [show openTok ++ body ++ closeBrace :: ';' :: rest =
    (openTok ++ body ++ closeBrace :: [';']) ++ rest from by simp]
  rw [matchRawAt_block body rest h1 h2]
  simp

theorem splitFirstMatch_cons_match {l m a : List Char} (h : matchRawAt l = some (m, a))
    (hl : l ≠ []) : splitFirstMatch l = some ([], m, a) := by
  cases l with
  | nil => exact absurd rfl hl
  | cons c r =>
    unfold splitFirstMatch
    rw [h]

theorem splitFirstMatch_sound : ∀ {l b m a : List Char},
    splitFirstMatch l = some (b, m, a) → isRawBlock m ∧ l = b ++ m ++ a := by
  intro l
  induction l with
  | nil => intro b m a h; simp [splitFirstMatch] at h
  | cons c rest ih =>
    intro b m a h
    unfold splitFirstMatch at h
    cases hm : matchRawAt (c :: rest) with
    | some p =>
      obtain ⟨m0, a0⟩ := p
      rw [hm] at h
      simp only [] at h
      rw [Option.some_inj] at h
      have hb : b = [] := (congrArg Prod.fst h).symm
      have hm2 : m = m0 := (congrArg (fun q => q.2.1) h).symm
      have ha : a = a0 := (congrArg (fun q => q.2.2) h).symm
      subst hb
      subst hm2
      subst ha
      obtain ⟨hblock, hleq⟩ := matchRawAt_some hm
      exact ⟨hblock, by rw [List.nil_append]; exact hleq⟩
    | none =>
      rw [hm] at h
      cases hs : splitFirstMatch rest with
      | none => rw [hs] at h; simp at h
      | some triple =>
        obtain ⟨b1, m1, a1⟩ := triple
        rw [hs] at h
        simp only [] at h
        rw [Option.some_inj] at h
        have hb : b = c :: b1 := (congrArg Prod.fst h).symm
        have hm2 : m = m1 := (congrArg (fun q => q.2.1) h).symm
        have ha : a = a1 := (congrArg (fun q => q.2.2) h).symm
        subst hb
        subst hm2
        subst ha
        obtain ⟨hblock, hleq⟩ := ih hs
        exact ⟨hblock, by rw [List.cons_append, List.cons_append, ← hleq]⟩

theorem splitFirstMatch_replace : ∀ {l b m a block : List Char},
    splitFirstMatch l = some (b, m, a) → isRawBlock block →
    splitFirstMatch (b ++ block ++ a) = some (b, block, a) := by
  intro l
  induction l with
  | nil => intro b m a block h _; simp [splitFirstMatch] at h
  | cons c rest ih =>
    intro b m a block h hblock
    unfold splitFirstMatch at h
    cases hm : matchRawAt (c :: rest) with
    | some p =>
      obtain ⟨m0, a0⟩ := p
      rw [hm] at h
      simp only [] at h
      rw [Option.some_inj] at h
      have hb : b = [] := (congrArg Prod.fst h).symm
      have ha : a = a0 := (congrArg (fun q => q.2.2) h).symm
      subst hb
      subst ha
      obtain ⟨bd, h1, h2, hbeq⟩ := hblock
      subst hbeq
      rw [List.nil_append]
      exact splitFirstMatch_cons_match (matchRawAt_block bd a h1 h2)
        (by simp [openTok_ne_nil])
    | none =>
      rw [hm] at h
      cases hs : splitFirstMatch rest with
      | none => rw [hs] at h; simp at h
      | some triple =>
        obtain ⟨b1, m1, a1⟩ := triple
        rw [hs] at h
        simp only [] at h
        rw [Option.some_inj] at h
        have hb : b = c :: b1 := (congrArg Prod.fst h).symm
        have hm2 : m = m1 := (congrArg (fun q => q.2.1) h).symm
        have ha : a = a1 := (congrArg (fun q => q.2.2) h).symm
        subst hb
        subst hm2
        subst ha
        obtain ⟨hm1block, hrest⟩ := splitFirstMatch_sound hs
        have hnomatch : matchRawAt ((c :: b1) ++ block ++ a) = none := by
          cases hmm : matchRawAt ((c :: b1) ++ block ++ a) with
          | none => rfl
          | some q =>
            exfalso
            have hhm : headMarker ((c :: b1) ++ m ++ a) :=
              headMarker_transfer hm1block hblock (headMarker_of_match hmm)
            apply match_of_headMarker hhm
            rw [show (c :: b1) ++ m ++ a = c :: rest from by rw [hrest]; simp]
            exact hm
        rw [show (c :: b1) ++ block ++ a = c :: (b1 ++ block ++ a) from by simp]
        unfold splitFirstMatch
        rw [show matchRawAt (c :: (b1 ++ block ++ a)) = none from by
          rw [show c :: (b1 ++ block ++ a) = (c :: b1) ++ block ++ a from by simp]
          exact hnomatch]
        rw [ih hs hblock]

theorem splitFirstMatch_exists : ∀ (pre body rest : List Char), body ≠ [] →
    closeBrace ∉ body →
    ∃ b m a, splitFirstMatch (pre ++ openTok ++ body ++ closeBrace :: ';' :: rest) =
      some (b, m, a) := by
  intro pre
  induction pre with
  | nil =>
    intro body rest h1 h2
    refine ⟨[], openTok ++ body ++ closeBrace :: [';'], rest, ?_⟩
    rw [show ([] : List Char) ++ openTok ++ body ++ closeBrace :: ';' :: rest =
      (openTok ++ body ++ closeBrace :: [';']) ++ rest from by simp]
    exact splitFirstMatch_cons_match (matchRawAt_block body rest h1 h2)
      (by simp [openTok_ne_nil])
  | cons c pre' ih =>
    intro body rest h1 h2
    obtain ⟨b, m, a, hs⟩ := ih body rest h1 h2
    rw [show ((c :: pre') ++ openTok ++ body ++ closeBrace :: ';' :: rest) =
      c :: (pre' ++ openTok ++ body ++ closeBrace :: ';' :: rest) from by simp]
    cases hmm : matchRawAt (c :: (pre' ++ openTok ++ body ++ closeBrace :: ';' :: rest)) with
    | some p =>
      obtain ⟨m0, a0⟩ := p
      exact ⟨[], m0, a0, by unfold splitFirstMatch; rw [hmm]⟩
    | none =>
      refine ⟨c :: b, m, a, ?_⟩
      unfold splitFirstMatch
      rw [hmm, hs]

/-! ### The serializer's block always matches the pattern -/

theorem commentFor_no_brace {date : List Char} (maxY y : Int) (hdate : closeBrace ∉ date) :
    closeBrace ∉ commentFor date maxY y := by
  unfold commentFor
  split
  · decide
  · split
    · decide
    · split
      · decide
      · split
        · intro hm
          unfold updNote at hm
          rcases List.mem_append.mp hm with hm | hm
          · exact absurd hm (by decide)
          · exact hdate hm
        · simp

theorem padLeft5_mem {l : List Char} {x : Char} (h : x ∈ padLeft5 l) : x = ' ' ∨ x ∈ l := by
  unfold padLeft5 at h
  rcases List.mem_append.mp h with h | h
  · exact Or.inl (List.eq_of_mem_replicate h)
  · exact Or.inr h

theorem lineFor_no_brace {date : List Char} (cd : Dict) (y : Int)
    (hdate : closeBrace ∉ date) : closeBrace ∉ lineFor date cd y := by
  intro hm
  unfold lineFor at hm
  rcases List.mem_append.mp hm with hm | hm
  · rcases List.mem_append.mp hm with hm | hm
    · rcases List.mem_cons.mp hm with hm | hm
      · exact absurd hm (by decide)
      · rcases List.mem_cons.mp hm with hm | hm
        · exact absurd hm (by decide)
        · exact absurd (intDecString_mem _ hm) (by decide)
    · rcases List.mem_cons.mp hm with hm | hm
      · exact absurd hm (by decide)
      · rcases List.mem_cons.mp hm with hm | hm
        · exact absurd hm (by decide)
        · rcases padLeft5_mem hm with hm | hm
          · exact absurd hm (by decide)
          · exact absurd (renderTenths_mem _ hm) (by decide)
  · rcases List.mem_cons.mp hm with hm | hm
    · exact absurd hm (by decide)
    · exact commentFor_no_brace _ _ hdate hm

theorem lineFor_no_newline {date : List Char} (cd : Dict) (y : Int)
    (hdate : ('\n') ∉ date) : ('\n') ∉ lineFor date cd y := by
  intro hm
  unfold lineFor at hm
  rcases List.mem_append.mp hm with hm | hm
  · rcases List.mem_append.mp hm with hm | hm
    · rcases List.mem_cons.mp hm with hm | hm
      · exact absurd hm (by decide)
      · rcases List.mem_cons.mp hm with hm | hm
        · exact absurd hm (by decide)
        · exact absurd (intDecString_mem _ hm) (by decide)
    · rcases List.mem_cons.mp hm with hm | hm
      · exact absurd hm (by decide)
      · rcases List.mem_cons.mp hm with hm | hm
        · exact absurd hm (by decide)
        · rcases padLeft5_mem hm with hm | hm
          · exact absurd hm (by decide)
          · exact absurd (renderTenths_mem _ hm) (by decide)
  · rcases List.mem_cons.mp hm with hm | hm
    · exact absurd hm (by decide)
    · revert hm
      unfold commentFor
      split
      · decide
      · split
        · decide
        · split
          · decide
          · split
            · intro hm
              unfold updNote at hm
              rcases List.mem_append.mp hm with hm | hm
              · exact absurd hm (by decide)
              · exact hdate hm
            · simp

theorem joinNL_not_mem {x : Char} (hx : x ≠ '\n') :
    ∀ {ls : List (List Char)}, (∀ l ∈ ls, x ∉ l) → x ∉ joinNL ls := by
  intro ls
  induction ls with
  | nil => intro _; simp [joinNL]
  | cons l ls2 ih =>
    intro hall hm
    cases ls2 with
    | nil =>
      exact hall l (List.mem_cons_self _ _) (by simpa [joinNL] using hm)
    | cons l2 ls3 =>
      simp only [joinNL] at hm
      rcases List.mem_append.mp hm with hm | hm
      · exact hall l (List.mem_cons_self _ _) hm
      · rcases List.mem_cons.mp hm with hm | hm
        · exact hx hm
        · exact ih (fun t ht => hall t (List.mem_cons_of_mem _ ht)) hm

theorem serializeBlock_isRawBlock (date : List Char) (cd : Dict)
    (hdate : closeBrace ∉ date) : isRawBlock (serializeBlock date cd) := by
  refine ⟨'\n' :: (joinNL (blockLines date cd) ++ ['\n']), by simp, ?_, rfl⟩
  intro hm
  rcases List.mem_cons.mp hm with hm | hm
  · exact absurd hm (by decide)
  · rcases List.mem_append.mp hm with hm | hm
    · exact joinNL_not_mem (by decide)
        (fun l hl => by
          obtain ⟨y, -, rfl⟩ := List.mem_map.mp hl
          exact lineFor_no_brace cd y hdate) hm
    · simp only [List.mem_singleton] at hm
      exact absurd hm (by decide)

/-- C5: every block produced by the serializer is itself matched by the
patcher's pattern: it starts with the opening token, its body is
non-empty and brace-free, and the matcher locates exactly the block in
any continuation. -/
theorem C5_serializer_block_matches (date : List Char) (d : Dict)
    (hdate : closeBrace ∉ date) :
    isRawBlock (build_raw_block date d) ∧
    ∀ rest, matchRawAt (build_raw_block date d ++ rest) =
      some (build_raw_block date d, rest) := by
  have hb : isRawBlock (build_raw_block date d) :=
    serializeBlock_isRawBlock date (combinedDict d) hdate
  refine ⟨hb, fun rest => ?_⟩
  obtain ⟨bd, h1, h2, he⟩ := hb
  rw [he]
  exact matchRawAt_block bd rest h1 h2

/-- Witness for C5 at a concrete date, data set, and continuation. -/
theorem C5_serializer_block_matches_witness :
    closeBrace ∉ (("07. 10. 2025").toList) ∧
    (isRawBlock (build_raw_block (("07. 10. 2025").toList) []) ∧
     ∀ rest, matchRawAt (build_raw_block (("07. 10. 2025").toList) [] ++ rest) =
       some (build_raw_block (("07. 10. 2025").toList) [], rest)) :=
  ⟨by decide, C5_serializer_block_matches (("07. 10. 2025").toList) [] (by decide)⟩

/-! ### C4: missing marker -/

/-- C4: if the marker pattern has no occurrence in the document, the
patch step returns `False`, prints the diagnostic to stderr, and writes
nothing. -/
theorem C4_missing_marker (newBlock html : List Char)
    (h : ∀ pre body rest, ¬(body ≠ [] ∧ closeBrace ∉ body ∧
      html = pre ++ openTok ++ body ++ closeBrace :: ';' :: rest)) :
    update_html newBlock html = ⟨false, none, true⟩ := by
  unfold update_html
  cases hs : splitFirstMatch html with
  | none => rfl
  | some triple =>
    exfalso
    obtain ⟨b, m, a⟩ := triple
    obtain ⟨⟨bd, h1, h2, hmeq⟩, hleq⟩ := splitFirstMatch_sound hs
    exact h b bd a ⟨h1, h2, by rw [hleq, hmeq]; simp⟩

/-- Witness for C4: a five-character document is too short to contain
the sixteen-character-minimum marker pattern. -/
theorem C4_missing_marker_witness :
    (∀ pre body rest, ¬(body ≠ [] ∧ closeBrace ∉ body ∧
      ("hello").toList = pre ++ openTok ++ body ++ closeBrace :: ';' :: rest)) ∧
    update_html [] (("hello").toList) = ⟨false, none, true⟩ := by
  have hyp : ∀ pre body rest, ¬(body ≠ [] ∧ closeBrace ∉ body ∧
      ("hello").toList = pre ++ openTok ++ body ++ closeBrace :: ';' :: rest) := by
    rintro pre body rest ⟨h1, -, h3⟩
    have hpos : 0 < body.length := List.length_pos.mpr h1
    have hlen := congrArg List.length h3
    rw [show (("hello").toList).length = 5 from by decide] at hlen
    simp only [List.length_append, List.length_cons,
      show openTok.length = 13 from by decide] at hlen
    omega
  exact ⟨hyp, C4_missing_marker [] _ hyp⟩

/-! ### C3: idempotence of the patch -/

/-- C3: on a document containing the marker, applying the patch twice
with the same serializer-produced block reports no change the second
time and performs no write. -/
theorem C3_patch_idempotent (html date : List Char) (d : Dict)
    (hdate : closeBrace ∉ date) (hmark : containsMarker html) :
    update_html (build_raw_block date d)
      (((update_html (build_raw_block date d) html).written).getD html) =
      ⟨false, none, false⟩ := by
  obtain ⟨pre, body, rest, h1, h2, hh⟩ := hmark
  obtain ⟨b, m, a, hs⟩ : ∃ b m a, splitFirstMatch html = some (b, m, a) := by
    rw [hh]
    exact splitFirstMatch_exists pre body rest h1 h2
  have hblock : isRawBlock (build_raw_block date d) :=
    serializeBlock_isRawBlock date (combinedDict d) hdate
  have hfirst : update_html (build_raw_block date d) html =
      if b ++ build_raw_block date d ++ a = html then ⟨false, none, false⟩
      else ⟨true, some (b ++ build_raw_block date d ++ a), false⟩ := by
    unfold update_html
    rw [hs]
  by_cases heq1 : b ++ build_raw_block date d ++ a = html
  · have hw : (update_html (build_raw_block date d) html).written = none := by
      rw [hfirst, if_pos heq1]
    rw [hw]
    simp only [Option.getD]
    rw [hfirst, if_pos heq1]
  · have hw : (update_html (build_raw_block date d) html).written =
        some (b ++ build_raw_block date d ++ a) := by
      rw [hfirst, if_neg heq1]
    rw [hw]
    simp only [Option.getD]
    have hs2 : splitFirstMatch (b ++ build_raw_block date d ++ a) =
        some (b, build_raw_block date d, a) :=
      splitFirstMatch_replace hs hblock
    unfold update_html
    rw [hs2]
    simp only [if_true]

/-- Witness for C3 on a concrete document containing the marker. -/
theorem C3_patch_idempotent_witness :
    closeBrace ∉ (("07. 10. 2025").toList) ∧
    containsMarker (("A const RAW = \x7b1\x7d; B").toList) ∧
    update_html (build_raw_block (("07. 10. 2025").toList) [])
      (((update_html (build_raw_block (("07. 10. 2025").toList) [])
          (("A const RAW = \x7b1\x7d; B").toList)).written).getD
        (("A const RAW = \x7b1\x7d; B").toList)) =
      ⟨false, none, false⟩ :=
  ⟨by decide,
   ⟨("A ").toList, ['1'], (" B").toList, by decide, by decide, by decide⟩,
   C3_patch_idempotent (("A const RAW = \x7b1\x7d; B").toList)
     (("07. 10. 2025").toList) [] (by decide)
     ⟨("A ").toList, ['1'], (" B").toList, by decide, by decide, by decide⟩⟩

/-! ### C10: serializer output structure and round trip -/

theorem trimChars_cons_space (l : List Char) : trimChars (' ' :: l) = trimChars l := by
  unfold trimChars
  rw [List.dropWhile_cons, if_pos (by decide)]

theorem trimChars_replicate_space (k : Nat) (l : List Char) :
    trimChars (List.replicate k ' ' ++ l) = trimChars l := by
  induction k with
  | zero => simp
  | succ n ih => rw [List.replicate_succ, List.cons_append, trimChars_cons_space, ih]

theorem parseInt?_congr (l2 : List Char) {l : List Char} (h : trimChars l = trimChars l2) :
    parseInt? l = parseInt? l2 := by
  unfold parseInt?
  rw [h]

theorem parseDecimal?_congr (l2 : List Char) {l : List Char} (h : trimChars l = trimChars l2) :
    parseDecimal? l = parseDecimal? l2 := by
  unfold parseDecimal?
  rw [h]

theorem joinNL_split (Z : List Char) : ∀ (ls : List (List Char)), ls ≠ [] →
    (∀ l ∈ ls, ('\n') ∉ l) →
    splitOnChar '\n' (joinNL ls ++ '\n' :: Z) = ls ++ splitOnChar '\n' Z := by
  intro ls
  induction ls with
  | nil => intro h _; exact absurd rfl h
  | cons l ls2 ih =>
    intro _ hall
    cases ls2 with
    | nil =>
      simp only [joinNL]
      rw [splitOnChar_append_sep l (hall l (List.mem_cons_self _ _))]
      rfl
    | cons l2 ls3 =>
      simp only [joinNL]
      rw [List.append_assoc, List.cons_append,
        splitOnChar_append_sep l (hall l (List.mem_cons_self _ _)),
        ih (by simp) (fun t ht => hall t (List.mem_cons_of_mem _ ht))]
      rfl

theorem splitOnChar_serializeBlock (date : List Char) (d : Dict)
    (hne : d ≠ []) (hdate : ('\n') ∉ date) :
    splitOnChar '\n' (serializeBlock date d) =
      openTok :: (blockLines date d ++ [closeBrace :: [';']]) := by
  have hlines_nonl : ∀ l ∈ blockLines date d, ('\n') ∉ l := by
    intro l hl
    obtain ⟨y, -, rfl⟩ := List.mem_map.mp hl
    exact lineFor_no_newline d y hdate
  have hlines_ne : blockLines date d ≠ [] := by
    intro h0
    apply hne
    have hsk : sortedKeys d = [] := List.map_eq_nil_iff.mp h0
    have hperm := List.perm_insertionSort (· ≤ ·) (dictKeys d)
    rw [show List.insertionSort (· ≤ ·) (dictKeys d) = sortedKeys d from rfl, hsk] at hperm
    have hkeys : dictKeys d = [] := hperm.symm.eq_nil
    exact List.map_eq_nil_iff.mp hkeys
  have hshape : serializeBlock date d =
      openTok ++ '\n' :: (joinNL (blockLines date d) ++ '\n' :: (closeBrace :: [';'])) := by
    unfold serializeBlock
    simp [List.append_assoc]
  rw [hshape, splitOnChar_append_sep openTok (by decide),
    joinNL_split _ _ hlines_ne hlines_nonl, splitOnChar_no_sep (by decide)]

theorem numChars_ne_colon : ∀ c ∈ numChars, (c != ':') = true := by decide

theorem numChars_ne_comma : ∀ c ∈ numChars, (c != ',') = true := by decide

theorem specExtractPair_lineFor (date : List Char) (cd : Dict) (y : Int) :
    specExtractPair (lineFor date cd y) = some (y, (dictGet? cd y).getD 0) := by
  set vv := (dictGet? cd y).getD 0 with hvv
  set A := ' ' :: ' ' :: intDecString y with hA
  set X := padLeft5 (renderTenths vv) with hX
  set C := commentFor date (maxKey cd) y with hC
  have hform : lineFor date cd y = A ++ ':' :: ((' ' :: X) ++ ',' :: C) := by
    unfold lineFor
    rw [hA, hX, hC, hvv]
    simp [List.append_assoc]
  have hAmem : ∀ c ∈ A, (c != ':') = true := by
    intro c hc
    rcases List.mem_cons.mp hc with rfl | hc
    · decide
    · rcases List.mem_cons.mp hc with rfl | hc
      · decide
      · exact numChars_ne_colon c (intDecString_mem c hc)
  have htw1 : (A ++ ':' :: ((' ' :: X) ++ ',' :: C)).takeWhile (fun c => c != ':') = A :=
    takeWhile_append_stop A hAmem (by decide)
  have hVmem : ∀ c ∈ ' ' :: X, (c != ',') = true := by
    intro c hc
    rcases List.mem_cons.mp hc with rfl | hc
    · decide
    · rcases padLeft5_mem (hX ▸ hc) with rfl | hc
      · decide
      · exact numChars_ne_comma c (renderTenths_mem c hc)
  have htw2 : ((' ' :: X) ++ ',' :: C).takeWhile (fun c => c != ',') = ' ' :: X :=
    takeWhile_append_stop (' ' :: X) hVmem (by decide)
  have hpint : parseInt? A = some y := by
    rw [parseInt?_congr (intDecString y) (by
      rw [hA, trimChars_cons_space, trimChars_cons_space])]
    exact parseInt?_intDecString y
  have hpdec : parseDecimal? (' ' :: X) = some ((vv : ℚ) / 10) := by
    rw [parseDecimal?_congr (renderTenths vv) (by
      rw [hX, trimChars_cons_space]
      unfold padLeft5
      rw [trimChars_replicate_space])]
    exact parseDecimal?_renderTenths vv
  unfold specExtractPair
  rw [hform]
  simp only [htw1, List.drop_left, List.drop_succ_cons, List.drop_zero, htw2, hpint, hpdec]
  rw [roundTo1_tenths]

theorem specExtractPair_openTok : specExtractPair openTok = none := by decide

theorem specExtractPair_close : specExtractPair (closeBrace :: [';']) = none := by decide

theorem filterMap_map_some {α β γ : Type} (f : β → Option γ) (g : α → β) (h : α → γ)
    (ys : List α) (hall : ∀ y ∈ ys, f (g y) = some (h y)) :
    (ys.map g).filterMap f = ys.map h := by
  induction ys with
  | nil => rfl
  | cons y rest ih =>
    simp only [List.map_cons, List.filterMap_cons, hall y (List.mem_cons_self _ _)]
    rw [ih (fun t ht => hall t (List.mem_cons_of_mem _ ht))]

/-- C10: for a non-empty merged mapping, the serialized block splits
into the opening line, one data line per year in strictly ascending
order, and the closing line; each data line renders the year and its
value (one decimal, right-aligned to width 5) followed by the comment;
and re-extracting the numeric parts of the lines recovers exactly the
mapping. -/
theorem C10_serialize_roundtrip (date : List Char) (d : Dict)
    (hne : d ≠ []) (hnd : (dictKeys d).Nodup) (hdate : ('\n') ∉ date) :
    splitOnChar '\n' (serializeBlock date d) =
      openTok :: ((sortedKeys d).map (lineFor date d) ++ [closeBrace :: [';']]) ∧
    (sortedKeys d).Perm (dictKeys d) ∧
    (sortedKeys d).Sorted (· < ·) ∧
    (∀ y ∈ sortedKeys d, ∃ v, dictGet? d y = some v ∧
      lineFor date d y = ' ' :: ' ' :: intDecString y ++ ':' :: ' ' ::
        padLeft5 (renderTenths v) ++ ',' :: commentFor date (maxKey d) y) ∧
    (∀ y v, (y, v) ∈ (splitOnChar '\n' (serializeBlock date d)).filterMap specExtractPair ↔
      dictGet? d y = some v) := by
  have hperm : (sortedKeys d).Perm (dictKeys d) := List.perm_insertionSort (· ≤ ·) (dictKeys d)
  have hsorted_le : (sortedKeys d).Sorted (· ≤ ·) :=
    List.sorted_insertionSort (· ≤ ·) (dictKeys d)
  have hnd' : (sortedKeys d).Nodup := hperm.nodup_iff.mpr hnd
  have hsplit := splitOnChar_serializeBlock date d hne hdate
  rw [show blockLines date d = (sortedKeys d).map (lineFor date d) from rfl] at hsplit
  refine ⟨hsplit, hperm, hsorted_le.lt_of_le hnd', ?_, ?_⟩
  · intro y hy
    have hk : y ∈ dictKeys d := hperm.mem_iff.mp hy
    obtain ⟨v, hv⟩ := dictGet?_mem_keys.mp hk
    refine ⟨v, hv, ?_⟩
    unfold lineFor
    rw [hv]
    rfl
  · intro y v
    have hfm : (openTok :: ((sortedKeys d).map (lineFor date d) ++
        [closeBrace :: [';']])).filterMap specExtractPair =
        (sortedKeys d).map (fun z => (z, (dictGet? d z).getD 0)) := by
      rw [List.filterMap_cons_none specExtractPair_openTok, List.filterMap_append,
        List.filterMap_cons_none specExtractPair_close, List.filterMap_nil,
        List.append_nil]
      exact filterMap_map_some specExtractPair (lineFor date d)
        (fun z => (z, (dictGet? d z).getD 0)) (sortedKeys d)
        (fun z _ => specExtractPair_lineFor date d z)
    rw [hsplit, hfm]
    constructor
    · intro hm
      obtain ⟨z, hz, he⟩ := List.mem_map.mp hm
      have hy0 : z = y := congrArg Prod.fst he
      have hv0 : (dictGet? d z).getD 0 = v := congrArg Prod.snd he
      rw [hy0] at hz hv0
      have hk : y ∈ dictKeys d := hperm.mem_iff.mp hz
      obtain ⟨w, hw⟩ := dictGet?_mem_keys.mp hk
      rw [hw] at hv0 ⊢
      simp only [Option.getD_some] at hv0
      rw [hv0]
    · intro hv
      have hk : y ∈ dictKeys d := dictGet?_mem_keys.mpr ⟨v, hv⟩
      refine List.mem_map.mpr ⟨y, hperm.mem_iff.mpr hk, ?_⟩
      rw [hv]
      rfl

/-- Witness for C10 on a concrete merged mapping and date. -/
theorem C10_serialize_roundtrip_witness :
    (([((1990 : Int), (97 : Int)), (2024, 20)] : Dict) ≠ []) ∧
    (dictKeys ([((1990 : Int), (97 : Int)), (2024, 20)] : Dict)).Nodup ∧
    (('\n') ∉ (("07. 10. 2025").toList)) ∧
    (splitOnChar '\n'
        (serializeBlock (("07. 10. 2025").toList) [(1990, 97), (2024, 20)]) =
      openTok :: ((sortedKeys [(1990, 97), (2024, 20)]).map
        (lineFor (("07. 10. 2025").toList) [(1990, 97), (2024, 20)]) ++
        [closeBrace :: [';']]) ∧
     (sortedKeys [(1990, 97), (2024, 20)]).Perm (dictKeys [(1990, 97), (2024, 20)]) ∧
     (sortedKeys [(1990, 97), (2024, 20)]).Sorted (· < ·) ∧
     (∀ y ∈ sortedKeys [(1990, 97), (2024, 20)], ∃ v,
       dictGet? [(1990, 97), (2024, 20)] y = some v ∧
       lineFor (("07. 10. 2025").toList) [(1990, 97), (2024, 20)] y =
         ' ' :: ' ' :: intDecString y ++ ':' :: ' ' :: padLeft5 (renderTenths v) ++
           ',' :: commentFor (("07. 10. 2025").toList)
             (maxKey [(1990, 97), (2024, 20)]) y) ∧
     (∀ y v, (y, v) ∈ (splitOnChar '\n'
         (serializeBlock (("07. 10. 2025").toList)
           [(1990, 97), (2024, 20)])).filterMap specExtractPair ↔
       dictGet? [(1990, 97), (2024, 20)] y = some v)) :=
  ⟨by decide, by decide, by decide,
   C10_serialize_roundtrip (("07. 10. 2025").toList) [(1990, 97), (2024, 20)]
     (by decide) (by decide) (by decide)⟩

example : parse_data 2025 (("year,value\n2023,10.7\n2024,2.0\n").toList) =
    [(2023, 107), (2024, 20)] := by decide

example : parse_data 2025 (("year;value\n2023;10,7\n").toList) = [(2023, 107)] := by decide

example : parse_data 2025 (("").toList) = [] := by decide

example : combinedDict [(2023, 107)] =
    [(1990, 97), (1991, 566), (1992, 111), (2023, 107)] := by decide
